import Mathlib

/-!
Verification of the scheduling engine of the snaac-interview-scheduler
repository against its natural-language specification.

The development shallowly embeds three Python modules:

* `Adv`  — `src/advanced_scheduler.py` (`AdvancedInterviewScheduler`): the
  two-track greedy engine (`schedule_interviews_continuous`), the conflict
  analyzer (`_analyze_conflict`), the gap score (`_calculate_gap_score`) and
  the randomized-restart optimizer (`optimize_schedule`).
* `Opt`  — `src/schedule_optimizer.py` (`InterviewScheduler`): the
  single-track greedy engine (`_greedy_scheduling`) and the backtracking
  engine (`_backtrack_scheduling`).
* `Core` — `src/core/scheduler_engine.py` (`InterviewScheduler`): the
  CP-SAT constraint model built by `_create_variables`,
  `_add_basic_constraints`, `_add_interviewer_constraints`, the
  first-preference objective, and the solution extraction
  (`_extract_solution`), together with a relational model of the external
  OR-Tools solver (any feasible, objective-optimal boolean assignment is a
  possible solver output).

Python mutable state is passed explicitly: the slot dictionary becomes a
list of `TimeSlot` records in insertion order, and in-place writes to team
objects become functionally updated team records returned alongside the
slot state.
-/

namespace Snaac

namespace Adv

/-- `Team` dataclass of `advanced_scheduler.py`: identity fields plus the
assignment fields the engine writes in place (`assigned_slot`,
`assigned_group`, `conflict_reason`). -/
structure Team where
  name : String
  availableSlots : List String
  email : String := ""
  phone : String := ""
  assignedSlot : Option String := none
  assignedGroup : Option String := none
  conflictReason : Option String := none
deriving DecidableEq

/-- `TimeSlot` dataclass of `advanced_scheduler.py`: one interview window
with the two track occupants (`group_a_team`, `group_b_team`). -/
structure TimeSlot where
  date : String
  time : String
  fullSlot : String
  groupATeam : Option String := none
  groupBTeam : Option String := none
deriving DecidableEq

/-- `TimeSlot.is_full`. -/
def TimeSlot.isFull (ts : TimeSlot) : Bool :=
  ts.groupATeam.isSome && ts.groupBTeam.isSome

/-- `TimeSlot.has_space`. -/
def TimeSlot.hasSpace (ts : TimeSlot) : Bool :=
  ts.groupATeam.isNone || ts.groupBTeam.isNone

/-- `TimeSlot.get_available_group`: track "A" first, then "B". -/
def TimeSlot.getAvailableGroup (ts : TimeSlot) : Option String :=
  if ts.groupATeam.isNone then some "A"
  else if ts.groupBTeam.isNone then some "B"
  else none

/-- Friday time windows of `_generate_all_slots`. -/
def fridayTimes : List String :=
  ["19:00-19:45", "19:45-20:30", "20:30-21:15", "21:15-22:00"]

/-- Saturday (and Sunday) time windows of `_generate_all_slots`. -/
def saturdayTimes : List String :=
  ["10:00-10:45", "10:45-11:30", "11:30-12:15", "12:15-13:00",
   "13:00-13:45", "13:45-14:30", "14:30-15:15", "15:15-16:00",
   "16:00-16:45", "16:45-17:30", "17:30-18:15", "18:15-19:00",
   "19:00-19:45", "19:45-20:30", "20:30-21:15", "21:15-22:00"]

/-- `_generate_all_slots`: the fixed 36-slot universe. -/
def allSlots : List String :=
  fridayTimes.map (fun t => "9/12 " ++ t) ++
    (saturdayTimes.map (fun t => "9/13 " ++ t) ++
      saturdayTimes.map (fun t => "9/14 " ++ t))

/-- Split a character list at its first space. -/
def breakAtSpace : List Char → Option (List Char × List Char)
  | [] => none
  | c :: rest =>
    if c = (' ') then some ([], rest)
    else
      match breakAtSpace rest with
      | some lr => some (c :: lr.1, lr.2)
      | none => none

/-- Python `slot.split(" ", 1)`: the part before the first space and the
part after it. -/
def splitDateTime (s : String) : String × String :=
  match breakAtSpace s.data with
  | some lr => (String.mk lr.1, String.mk lr.2)
  | none => (s, "")

/-- `_initialize_time_slots`: the slot dictionary in insertion order, with
both tracks empty. -/
def initSlots : List TimeSlot :=
  allSlots.map (fun s =>
    { date := (splitDateTime s).1, time := (splitDateTime s).2, fullSlot := s })

/-- Dictionary read `self.time_slots[slot]` (keys are the `full_slot`
strings, unique by construction). -/
def lookupSlot (st : List TimeSlot) (s : String) : Option TimeSlot :=
  st.find? (fun ts => ts.fullSlot = s)

/-- In-place field write on the slot stored under key `s`. -/
def updateSlot (st : List TimeSlot) (s : String) (f : TimeSlot → TimeSlot) :
    List TimeSlot :=
  st.map (fun ts => if ts.fullSlot = s then f ts else ts)

/-- Python `s.startswith(p)`. -/
def strStarts (s p : String) : Bool := p.data.isPrefixOf s.data

/-- `_get_continuous_slot_priority`: date-grouped chronological slot order. -/
def slotPriority : List String :=
  allSlots.filter (fun s => strStarts s ("9/12")) ++
    (allSlots.filter (fun s => strStarts s ("9/13")) ++
      allSlots.filter (fun s => strStarts s ("9/14")))

/-- Conflict message for a team with an empty availability list. -/
def noSlotsMsg : String := "가능한 시간대가 없음"

/-- Conflict message of the residual case of `_analyze_conflict`. -/
def unknownMsg : String := "알 수 없는 이유"

/-- The occupant labels collected by `_analyze_conflict` over the team's
available slots (`"name(A조)"` / `"name(B조)"`). -/
def conflictingTeams (team : Team) (st : List TimeSlot) : List String :=
  (team.availableSlots.map (fun s =>
    match lookupSlot st s with
    | none => []
    | some ts =>
      (ts.groupATeam.map (fun n => n ++ "(A조)")).toList ++
        (ts.groupBTeam.map (fun n => n ++ "(B조)")).toList)).flatten

/-- `list(set(conflicting_teams))[:3]` — CPython's set iteration order is
unspecified, modelled here by a deterministic deduplication. -/
def conflictSample (team : Team) (st : List TimeSlot) : List String :=
  ((conflictingTeams team st).dedup).take 3

/-- The `AllSlotsOccupied` message with its joined occupant sample. -/
def allOccMsg (names : List String) : String :=
  "모든 가능 시간대가 이미 배정됨. 충돌 팀: " ++ String.intercalate (", ") names

/-- The `all_full` loop of `_analyze_conflict`: no available slot that is a
key of the slot dictionary has free space. -/
def allFull (team : Team) (st : List TimeSlot) : Bool :=
  team.availableSlots.all (fun s =>
    match lookupSlot st s with
    | none => true
    | some ts => !ts.hasSpace)

/-- `_analyze_conflict`. -/
def analyzeConflict (team : Team) (st : List TimeSlot) : String :=
  if team.availableSlots.isEmpty then noSlotsMsg
  else if allFull team st then allOccMsg (conflictSample team st)
  else unknownMsg

/-- Python truthiness of an `Optional[str]` field (`None` and `""` are
falsy). -/
def optTruthy (o : Option String) : Bool := !(o.getD ("")).isEmpty

/-- The placement scan of `schedule_interviews_continuous`: walk the slot
priority list, and place in the first slot that is in the team's
availability and has a free track; the track is the result of
`get_available_group` (track "A" preferred). -/
def findPlacement (st : List TimeSlot) (team : Team) :
    List String → Option (String × String)
  | [] => none
  | s :: rest =>
    if s ∈ team.availableSlots then
      match lookupSlot st s with
      | some ts =>
        if ts.hasSpace then
          some (s, if ts.getAvailableGroup = some ("A") then "A" else "B")
        else findPlacement st team rest
      | none => findPlacement st team rest
    else findPlacement st team rest

/-- Write the placed team name into the chosen track of the chosen slot
(the `if group == "A"` branch of the engine). -/
def placeAt (st : List TimeSlot) (s g name : String) : List TimeSlot :=
  updateSlot st s (fun ts =>
    if g = "A" then { ts with groupATeam := some name }
    else { ts with groupBTeam := some name })

/-- Reset of the per-team assignment state at the start of each run. -/
def resetTeam (t : Team) : Team :=
  { t with assignedSlot := none, assignedGroup := none, conflictReason := none }

/-- Stable insertion (ascending by availability size, new element after
equals) — the behaviour of Python's stable `sorted(teams, key=len)`. -/
def insertByLen (x : Nat × Team) : List (Nat × Team) → List (Nat × Team)
  | [] => [x]
  | y :: ys =>
    if y.2.availableSlots.length ≤ x.2.availableSlots.length then
      y :: insertByLen x ys
    else x :: y :: ys

/-- Stable sort by availability size over index-tagged teams. -/
def sortTeamsByLen (l : List (Nat × Team)) : List (Nat × Team) :=
  l.foldl (fun acc x => insertByLen x acc) []

/-- One iteration of the placement loop of `schedule_interviews_continuous`
for one (index, team) item: place the team if possible, otherwise record
its conflict reason.  The index identifies the mutated Python object. -/
def greedyStep (acc : List TimeSlot × List (Nat × Team)) (it : Nat × Team) :
    List TimeSlot × List (Nat × Team) :=
  if optTruthy it.2.assignedSlot then acc
  else
    match findPlacement acc.1 it.2 slotPriority with
    | some (s, g) =>
      (placeAt acc.1 s g it.2.name,
        (it.1, { it.2 with assignedSlot := some s, assignedGroup := some g }) :: acc.2)
    | none =>
      (acc.1, (it.1, { it.2 with conflictReason := some (analyzeConflict it.2 acc.1) }) :: acc.2)

/-- Result of one engine run: the slot state and the team list (in the
order the engine was given, with the in-place field writes applied). -/
structure RunResult where
  state : List TimeSlot
  teams : List Team
deriving DecidableEq

/-- `schedule_interviews_continuous`: reset all slots and team fields,
sort the teams most-constrained-first (stably), then place each team in
slot-priority order.  The slot reset makes the run independent of the
slot occupancy left by a previous run, so the state starts from
`initSlots`. -/
def runContinuousOn (teams : List Team) : RunResult :=
  let reset := teams.map resetTeam
  let sorted := sortTeamsByLen reset.enum
  let out := sorted.foldl greedyStep (initSlots, [])
  { state := out.1
    teams := reset.enum.map (fun it =>
      ((out.2.find? (fun u => u.1 = it.1)).map Prod.snd).getD it.2) }

/-- `_get_schedule_by_group`: the ("A" dict, "B" dict) pair, in slot
insertion order. -/
def getScheduleByGroup (st : List TimeSlot) :
    List (String × String) × List (String × String) :=
  (st.filterMap (fun ts => ts.groupATeam.map (fun n => (ts.fullSlot, n))),
   st.filterMap (fun ts => ts.groupBTeam.map (fun n => (ts.fullSlot, n))))

/-- The inner walk of `_calculate_gap_score` over one day's occupancy
flags: `in_session` turns on at the first occupied slot and every later
empty slot adds one. -/
def gapWalk : Bool → List Bool → Nat
  | _, [] => 0
  | ins, b :: rest =>
    if b then gapWalk true rest
    else (if ins then 1 else 0) + gapWalk ins rest

/-- Whether the given track of the slot stored under key `s` is occupied. -/
def occupiedFlag (st : List TimeSlot) (g s : String) : Bool :=
  match lookupSlot st s with
  | some ts => if g = "A" then ts.groupATeam.isSome else ts.groupBTeam.isSome
  | none => false

/-- The day's occupancy flags for one track, in chronological order. -/
def dateFlags (st : List TimeSlot) (g date : String) : List Bool :=
  (allSlots.filter (fun s => strStarts s date)).map (occupiedFlag st g)

/-- `_calculate_gap_score`. -/
def calcGapScore (st : List TimeSlot) : Nat :=
  ((["A", "B"]).map (fun g =>
    ((["9/12", "9/13", "9/14"]).map (fun d => gapWalk false (dateFlags st g d))).sum)).sum

/-- The per-iteration snapshot kept by `optimize_schedule` when an
iteration improves on the best so far: the copied A/B schedule dicts, the
assigned count, the gap score and the `(name, assigned_slot,
assigned_group, conflict_reason)` tuples of all teams. -/
structure Best where
  schedA : List (String × String)
  schedB : List (String × String)
  count : Nat
  gapScore : Nat
  saved : List (String × Option String × Option String × Option String)
deriving DecidableEq

/-- One iteration of `optimize_schedule`: run the greedy engine on the
shuffled team order and measure the result. -/
def runIteration (order : List Team) : Best × RunResult :=
  let r := runContinuousOn order
  let sab := getScheduleByGroup r.state
  { schedA := sab.1
    schedB := sab.2
    count := (r.teams.filter (fun t => optTruthy t.assignedSlot)).length
    gapScore := calcGapScore r.state
    saved := r.teams.map (fun t =>
      (t.name, t.assignedSlot, t.assignedGroup, t.conflictReason)) }
  |> (fun b => (b, r))

/-- The strict-improvement test of `optimize_schedule`.  Initially
`best_count = 0` and `best_gap_score = inf`, so the first iteration always
improves (`count > 0`, or `count = 0 = best_count` and any finite gap is
below infinity). -/
def improves (best : Option Best) (b : Best) : Bool :=
  match best with
  | none => true
  | some pb => b.count > pb.count || (b.count == pb.count && b.gapScore < pb.gapScore)

/-- The iteration loop of `optimize_schedule` over the sequence of
shuffled team orders, with the early exit once the retained best assigns
every team with gap score zero.  Returns the retained best (if any
iteration ran) together with the team list as left by the last executed
iteration (`self.teams` after the loop). -/
def optLoop (total : Nat) :
    List (List Team) → Option Best → RunResult → Option Best × RunResult
  | [], best, cur => (best, cur)
  | o :: rest, best, _cur =>
    let br := runIteration o
    let best' := if improves best br.1 then some br.1 else best
    if improves best br.1 && (br.1.count == total && br.1.gapScore == 0) then
      (best', br.2)
    else optLoop total rest best' br.2

/-- The executed prefix of the shuffled orders (the iterations that run
before the early exit of `optimize_schedule`). -/
def executedIters (total : Nat) :
    List (List Team) → Option Best → List (List Team)
  | [], _ => []
  | o :: rest, best =>
    let br := runIteration o
    let best' := if improves best br.1 then some br.1 else best
    if improves best br.1 && (br.1.count == total && br.1.gapScore == 0) then [o]
    else o :: executedIters total rest best'

/-- The state-restoration step of `optimize_schedule`: reset every slot
and replay the retained A/B schedule dicts into the slot dictionary. -/
def rebuildState (sa sb : List (String × String)) : List TimeSlot :=
  let st1 := sa.foldl (fun st p =>
    updateSlot st p.1 (fun ts => { ts with groupATeam := some p.2 })) initSlots
  sb.foldl (fun st p =>
    updateSlot st p.1 (fun ts => { ts with groupBTeam := some p.2 })) st1

/-- The team-restoration step of `optimize_schedule`: each team takes the
assignment fields of the first saved tuple bearing its name (teams with no
saved tuple keep the fields of the last executed iteration). -/
def restoreTeam (saved : List (String × Option String × Option String × Option String))
    (t : Team) : Team :=
  match saved.find? (fun q => t.name = q.1) with
  | some q => { t with assignedSlot := q.2.1, assignedGroup := q.2.2.1,
                       conflictReason := q.2.2.2 }
  | none => t

/-- The value and final mutable state of `optimize_schedule`: the returned
best schedule dicts, plus the slot dictionary and team list as left after
the restoration step. -/
structure OptResult where
  schedA : List (String × String)
  schedB : List (String × String)
  state : List TimeSlot
  teams : List Team
deriving DecidableEq

/-- `optimize_schedule`, with the sequence of `random.shuffle` outcomes
supplied explicitly as the list of team orders tried (one per iteration,
up to `max_iterations`).  `st0` is the slot state the scheduler holds
before the call; it survives only when no iteration improves (empty
`orders`). -/
def optimizeSchedule (teams : List Team) (orders : List (List Team))
    (st0 : List TimeSlot) : OptResult :=
  let out := optLoop teams.length orders none { state := st0, teams := teams }
  match out.1 with
  | none =>
    { schedA := [], schedB := [], state := out.2.state, teams := out.2.teams }
  | some b =>
    if b.saved.isEmpty then
      { schedA := b.schedA, schedB := b.schedB
        state := out.2.state, teams := out.2.teams }
    else
      { schedA := b.schedA, schedB := b.schedB
        state := rebuildState b.schedA b.schedB
        teams := out.2.teams.map (restoreTeam b.saved) }

end Adv

namespace Opt

/-- `Team` dataclass of `schedule_optimizer.py` (single-track model). -/
structure Team where
  name : String
  availableSlots : List String
  email : String := ""
  phone : String := ""
  assignedSlot : Option String := none
deriving DecidableEq

/-- Stable insertion used to model Python's stable ascending sort by
availability size. -/
def insByLen (x : Team) : List Team → List Team
  | [] => [x]
  | y :: ys =>
    if y.availableSlots.length ≤ x.availableSlots.length then y :: insByLen x ys
    else x :: y :: ys

/-- The MRV ordering applied by both `_greedy_scheduling` (via `sorted`)
and `_backtrack_scheduling` (via the in-place `sort`). -/
def mrvSort (teams : List Team) : List Team :=
  teams.foldl (fun acc t => insByLen t acc) []

/-- `_generate_all_slots` of `schedule_optimizer.py` — the same literal
36-slot list as in `advanced_scheduler.py`. -/
def allSlots : List String := Adv.allSlots

/-- One placement of `_greedy_scheduling`: the team takes the first of
its declared slots that is not yet a key of the schedule dictionary. -/
def greedyStep (sched : List (String × String)) (t : Team) :
    List (String × String) :=
  match t.availableSlots.find?
      (fun s => (sched.find? (fun p => p.1 = s)).isNone) with
  | some s => sched ++ [(s, t.name)]
  | none => sched

/-- `_greedy_scheduling`, reduced to the `self.schedule` dictionary it
builds (an insertion-ordered association list from slot to team name):
teams in MRV order, each taking the first of its declared slots that is
not yet a key of the schedule. -/
def greedySchedule (teams : List Team) : List (String × String) :=
  (mrvSort teams).foldl greedyStep []

/-- The recursive `backtrack` closure of `_backtrack_scheduling`: place
the current team in its next untried available slot that is not yet a
schedule key, recurse, and undo on failure (undo is implicit here because
the extended schedule is only passed downward). -/
def btAux : List Team → List (String × String) → List String →
    Option (List (String × String))
  | [], sched, _ => some sched
  | t :: rest, sched, assigned =>
    if t.name ∈ assigned then btAux rest sched assigned
    else
      t.availableSlots.findSome? (fun s =>
        if (sched.find? (fun p => p.1 = s)).isSome then none
        else btAux rest (sched ++ [(s, t.name)]) (t.name :: assigned))
termination_by ts _ _ => ts.length
decreasing_by all_goals simp

/-- The search phase of `_backtrack_scheduling` (before the greedy
fallback): MRV-sort the teams and run the depth-first search. -/
def backtrackRun (teams : List Team) : Option (List (String × String)) :=
  btAux (mrvSort teams) [] []

/-- `_backtrack_scheduling` including its fallback policy: on search
exhaustion the greedy engine's partial schedule is returned instead. -/
def backtrackScheduling (teams : List Team) : List (String × String) :=
  match backtrackRun teams with
  | some r => r
  | none => greedySchedule (mrvSort teams)

/-- Specification-side feasibility (§8 "Completeness on small feasible
instances"): the teams can be placed in pairwise-distinct slots of their
own declared availability, avoiding the already-occupied slots `occ`. -/
inductive CanPlace : List Team → List String → Prop
  | nil {occ : List String} : CanPlace [] occ
  | cons {t : Team} {rest : List Team} {occ : List String} {s : String} :
      s ∈ t.availableSlots → s ∉ occ → CanPlace rest (s :: occ) →
      CanPlace (t :: rest) occ

end Opt

namespace Core

/-- `InterviewGroup` enum of `core/models.py` (values "A조" / "B조"). -/
inductive Group
  | A
  | B
deriving DecidableEq

/-- `InterviewGroup.value`. -/
def Group.val : Group → String
  | .A => "A조"
  | .B => "B조"

/-- `InterviewSlot` of `core/models.py`, restricted to the fields the
engine reads.  The random `uuid` slot id is modelled by a deterministic
unique key built from the slot's date, start time and group. -/
structure Slot where
  slotId : String
  date : String
  startTime : String
  endTime : String
  group : Group
deriving DecidableEq

/-- `Team` of `core/models.py`, restricted to the fields the engine
reads: the id, the name and the ranked `time_preferences` windows (the
model has no availability list; preferences are its only declared time
data). -/
structure Team where
  teamId : String
  teamName : String
  timePreferences : List String := []
deriving DecidableEq

/-- `InterviewConstraint`, restricted to the avoidance fields the engine
reads.  Python dictionaries become insertion-ordered association lists. -/
structure Constraint where
  interviewerAvoidance : List (String × List String) := []
  interviewerGroups : List (String × String) := []
deriving DecidableEq

/-- First-match association-list lookup (`dict.get`). -/
def lookupAssoc {α : Type} (l : List (String × α)) (k : String) : Option α :=
  (l.find? (fun p => p.1 = k)).map (fun p => p.2)

/-- Python `f"{n:02d}"`. -/
def fmt2 (n : Nat) : String :=
  if n < 10 then "0" ++ toString n else toString n

/-- `"HH:MM"` rendering of a minute count, as in
`_generate_default_time_slots`. -/
def timeStr (minutes : Nat) : String :=
  fmt2 (minutes / 60) ++ ":" ++ fmt2 (minutes % 60)

/-- The `while current_time < end_time` loop of
`_generate_default_time_slots`, advancing by the 30-minute slot duration;
the fuel argument only bounds the number of iterations. -/
def windowStartsAux : Nat → Nat → Nat → List Nat
  | 0, _, _ => []
  | fuel + 1, cur, endT =>
    if cur < endT then cur :: windowStartsAux fuel (cur + 30) endT else []

/-- The slots of one (date, time-range) block: one A-slot and one B-slot
per 30-minute window. -/
def slotsForRange (date : String) (startH endH : Nat) : List Slot :=
  (windowStartsAux (endH * 60) (startH * 60) (endH * 60)).flatMap (fun cur =>
    ([Group.A, Group.B]).map (fun g =>
      { slotId := date ++ "|" ++ timeStr cur ++ "|" ++ g.val
        date := date
        startTime := timeStr cur
        endTime := timeStr (cur + 30)
        group := g }))

/-- `_generate_default_time_slots`: three days, ranges 9-12 and 14-18,
30-minute windows, one slot per group.  The three dates come from
`datetime.now()` and are therefore parameters of the embedding. -/
def generateDefaultTimeSlots (d0 d1 d2 : String) : List Slot :=
  ([d0, d1, d2]).flatMap (fun d => slotsForRange d 9 12 ++ slotsForRange d 14 18)

/-- Value of a boolean decision variable as a 0/1 summand. -/
def b2n (b : Bool) : Nat := if b then 1 else 0

/-- Assignment of the `schedule_{team}_{slot}_{group}` boolean variables:
`_create_variables` creates one for every (team, slot, group) triple, with
no availability restriction. -/
def ScheduleAsn : Type := String → String → Group → Bool

/-- Assignment of the `preference_{team}_{rank}` variables (ranks 1-3). -/
def PrefAsn : Type := String → Nat → Bool

/-- Assignment of the `group_{team}_{group}` variables. -/
def GroupAsn : Type := String → Group → Bool

/-- The per-team variable total of basic constraint 1: all slots, both
group indices. -/
def teamPairSum (slots : List Slot) (x : ScheduleAsn) (tid : String) : Nat :=
  (slots.map (fun s => b2n (x tid s.slotId .A) + b2n (x tid s.slotId .B))).sum

/-- The per-(slot, group) variable total of basic constraint 2. -/
def slotGroupSum (teams : List Team) (x : ScheduleAsn) (sid : String) (g : Group) : Nat :=
  (teams.map (fun t => b2n (x t.teamId sid g))).sum

/-- Basic constraint 1 of `_add_basic_constraints`: each team's variables
sum to exactly one (skipped when no variables exist). -/
def basicC1 (teams : List Team) (slots : List Slot) (x : ScheduleAsn) : Bool :=
  teams.all (fun t => slots.isEmpty || teamPairSum slots x t.teamId == 1)

/-- Basic constraint 2: at most one team per (slot, group) variable key
(skipped when no variables exist). -/
def basicC2 (teams : List Team) (slots : List Slot) (x : ScheduleAsn) : Bool :=
  slots.all (fun s =>
    (teams.isEmpty || slotGroupSum teams x s.slotId .A ≤ 1) &&
      (teams.isEmpty || slotGroupSum teams x s.slotId .B ≤ 1))

/-- The group-consistency sum of basic constraint 3: the team's variables
with group index `g` over the slots whose own group is `g`. -/
def groupMatchedSum (slots : List Slot) (x : ScheduleAsn) (tid : String) (g : Group) : Nat :=
  ((slots.filter (fun s => s.group = g)).map (fun s => b2n (x tid s.slotId g))).sum

/-- Basic constraint 3: for each team and each group, the group-matched
variables sum to the team's group variable (skipped when the matched
variable list is empty). -/
def basicC3 (teams : List Team) (slots : List Slot) (x : ScheduleAsn)
    (g2 : GroupAsn) : Bool :=
  teams.all (fun t =>
    ((slots.filter (fun s => s.group = Group.A)).isEmpty ||
        groupMatchedSum slots x t.teamId .A == b2n (g2 t.teamId .A)) &&
    ((slots.filter (fun s => s.group = Group.B)).isEmpty ||
        groupMatchedSum slots x t.teamId .B == b2n (g2 t.teamId .B)))

/-- `_time_to_minutes`, with Python's `int`-raising failures surfaced as
`none` (they are caught by the caller's `except`). -/
def timeToMinutes (s : String) : Option Nat :=
  match s.splitOn (":") with
  | [h, m] =>
    match h.toNat?, m.toNat? with
    | some hh, some mm => some (hh * 60 + mm)
    | _, _ => none
  | _ => none

/-- `_time_ranges_overlap` (`False` on any parse failure). -/
def timeRangesOverlap (s1 e1 s2 e2 : String) : Bool :=
  match timeToMinutes s1, timeToMinutes e1, timeToMinutes s2, timeToMinutes e2 with
  | some a, some b, some c, some d => decide (a < d) && decide (c < b)
  | _, _, _, _ => false

/-- `_find_matching_slots`: parse `"start-end"` and keep the slots whose
window overlaps it; any malformed preference yields the empty list. -/
def findMatchingSlots (slots : List Slot) (timePref : String) : List Slot :=
  match timePref.splitOn ("-") with
  | [a, b] => slots.filter (fun s => timeRangesOverlap a.trim b.trim s.startTime s.endTime)
  | _ => []

/-- Basic constraint 4: each satisfiable preference rank is bounded by
the placement variables of its matching slots (no constraint when nothing
matches). -/
def prefC (teams : List Team) (slots : List Slot) (x : ScheduleAsn)
    (p : PrefAsn) : Bool :=
  teams.all (fun t =>
    ((t.timePreferences.take 3).enum.all (fun itp =>
      let matching := findMatchingSlots slots itp.2
      matching.isEmpty ||
        b2n (p t.teamId (itp.1 + 1)) ≤
          (matching.map (fun s =>
            b2n (x t.teamId s.slotId .A) + b2n (x t.teamId s.slotId .B))).sum)))

/-- `_add_interviewer_constraints`: for each interviewer with a truthy
assigned group, the group variable of every avoided team that exists in
the team list is forced to zero.  Note the code maps any group string
other than `"A"` to group B. -/
def interviewerC (teams : List Team) (cons : Constraint) (g2 : GroupAsn) : Bool :=
  cons.interviewerAvoidance.all (fun ia =>
    match lookupAssoc cons.interviewerGroups ia.1 with
    | none => true
    | some gs =>
      if gs.isEmpty then true
      else
        let ge := if gs = "A" then Group.A else Group.B
        ia.2.all (fun tid =>
          match teams.find? (fun t => t.teamId = tid) with
          | none => true
          | some t => !(g2 t.teamId ge)))

/-- All hard constraints of `_generate_single_option`'s model (the five
strategies share them; only the objective differs). -/
def feasible (teams : List Team) (slots : List Slot) (cons : Constraint)
    (x : ScheduleAsn) (p : PrefAsn) (g2 : GroupAsn) : Bool :=
  basicC1 teams slots x && basicC2 teams slots x && basicC3 teams slots x g2 &&
    prefC teams slots x p && interviewerC teams cons g2

/-- The `FIRST_PREFERENCE` objective (`_set_first_preference_objective`):
100/50/25-weighted preference variables, maximized. -/
def objFP (teams : List Team) (p : PrefAsn) : Nat :=
  (teams.map (fun t =>
    100 * b2n (p t.teamId 1) + 50 * b2n (p t.teamId 2) + 25 * b2n (p t.teamId 3))).sum

/-- The preference-rank scan of `_extract_solution` (first rank 1-3 whose
variable is set, else 0). -/
def prefRankOf (p : PrefAsn) (tid : String) : Nat :=
  if p tid 1 then 1 else if p tid 2 then 2 else if p tid 3 then 3 else 0

/-- `Schedule` of `core/models.py`, restricted to the fields
`_extract_solution` populates. -/
structure Sched where
  team : Team
  slot : Slot
  prefRank : Nat
deriving DecidableEq

/-- The placement scan of `_extract_solution` for one team: the first
slot (in slot order, group index A then B) whose variable is set. -/
def findTeamSched (slots : List Slot) (x : ScheduleAsn) (p : PrefAsn)
    (t : Team) : Option Sched :=
  (slots.findSome? (fun s =>
    if x t.teamId s.slotId .A then some s
    else if x t.teamId s.slotId .B then some s
    else none)).map (fun s =>
      { team := t, slot := s, prefRank := prefRankOf p t.teamId })

/-- `_extract_solution`: one `Schedule` per team found placed (teams with
no set variable are only logged and skipped). -/
def extractSolution (teams : List Team) (slots : List Slot) (x : ScheduleAsn)
    (p : PrefAsn) : List Sched :=
  teams.filterMap (findTeamSched slots x p)

/-- Satisfiability of the hard constraints. -/
def Sat (teams : List Team) (slots : List Slot) (cons : Constraint) : Prop :=
  ∃ x p g2, feasible teams slots cons x p g2 = true

/-- The external CP-SAT solver run under the `FIRST_PREFERENCE`
objective, modelled relationally: the solver either reports
infeasibility, or returns some feasible assignment of maximal objective
value.  Any such assignment is a possible solver output. -/
def IsOptimalFP (teams : List Team) (slots : List Slot) (cons : Constraint)
    (x : ScheduleAsn) (p : PrefAsn) (g2 : GroupAsn) : Prop :=
  feasible teams slots cons x p g2 = true ∧
    ∀ x' p' g2', feasible teams slots cons x' p' g2' = true →
      objFP teams p' ≤ objFP teams p

/-- A possible `FIRST_PREFERENCE` solve result: the extraction of some
feasible, objective-optimal assignment. -/
def PossibleFPResult (teams : List Team) (slots : List Slot)
    (cons : Constraint) (res : List Sched) : Prop :=
  ∃ x p g2, IsOptimalFP teams slots cons x p g2 ∧
    res = extractSolution teams slots x p

/-- `SchedulingOption` of `core/models.py`, restricted to the fields
`_generate_single_option` populates. -/
structure SchedOption where
  optionName : String
  strategyType : String
  schedules : List Sched
deriving DecidableEq

/-- The solver contract used by `_generate_single_option`, abstracted
over the strategy objective: a `None` return means the hard constraints
are unsatisfiable, any other return carries a feasible assignment.  Every
behaviour of the real solver is included in this relation. -/
def CpReturns (teams : List Team) (slots : List Slot) (cons : Constraint)
    (r : Option (ScheduleAsn × PrefAsn × GroupAsn)) : Prop :=
  (r = none ∧ ¬ Sat teams slots cons) ∨
    (∃ x p g2, r = some (x, p, g2) ∧ feasible teams slots cons x p g2 = true)

/-- `_generate_single_option` downstream of the solver call: on a
non-optimal/feasible status it returns `None`, otherwise it extracts the
solution into a `SchedulingOption`. -/
def GenSingleRel (teams : List Team) (slots : List Slot) (cons : Constraint)
    (name styp : String) (out : Option SchedOption) : Prop :=
  ∃ r, CpReturns teams slots cons r ∧
    out = r.map (fun a =>
      { optionName := name, strategyType := styp
        schedules := extractSolution teams slots a.1 a.2.1 })

/-- The five strategy (value, label) pairs of `generate_five_options`. -/
def strategyList : List (String × String) :=
  [("first_preference", "옵션 1: 1순위 희망시간 최대 반영"),
   ("time_distribution", "옵션 2: 시간 분산 최적화"),
   ("morning_afternoon_balance", "옵션 3: 오전/오후 균등 배치"),
   ("group_balance", "옵션 4: 조별 균등 배치 우선"),
   ("interviewer_constraints", "옵션 5: 면접관 제약조건 최우선")]

/-- `generate_five_options`: one solve per strategy; a strategy whose
option is `None` (its `generation_time` write raises and is swallowed by
the `except`) or whose schedule list is empty is dropped from the
returned options. -/
def GenFiveRel (teams : List Team) (slots : List Slot) (cons : Constraint)
    (out : List SchedOption) : Prop :=
  ∃ picks : List (Option SchedOption),
    List.Forall₂ (fun strat o => GenSingleRel teams slots cons strat.2 strat.1 o)
      strategyList picks ∧
    out = picks.filterMap (fun o =>
      match o with
      | some op => if op.schedules.isEmpty then none else some op
      | none => none)

end Core

namespace Adv

/-- Specification-side gap score of one day (claim wording): the number
of empty slots lying strictly between the first and the last occupied
slot of the track on that date. -/
def strictBetweenEmpties (flags : List Bool) : Nat :=
  ((flags.dropWhile (fun b => !b)).reverse.dropWhile (fun b => !b)).count false

/-- Specification-side total gap score under the strictly-between
reading. -/
def gapScoreStrictSpec (st : List TimeSlot) : Nat :=
  ((["A", "B"]).map (fun g =>
    ((["9/12", "9/13", "9/14"]).map (fun d =>
      strictBetweenEmpties (dateFlags st g d))).sum)).sum

/-- Amended reading of the gap score of one day: the number of empty
slots after the first occupied slot of the track on that date, trailing
empties included. -/
def afterFirstEmpties (flags : List Bool) : Nat :=
  (flags.dropWhile (fun b => !b)).count false

/-- Amended total gap score. -/
def gapScoreAfterFirstSpec (st : List TimeSlot) : Nat :=
  ((["A", "B"]).map (fun g =>
    ((["9/12", "9/13", "9/14"]).map (fun d =>
      afterFirstEmpties (dateFlags st g d))).sum)).sum

/-- All occupant names of the slot state, every track of every slot. -/
def occupants (st : List TimeSlot) : List String :=
  st.flatMap (fun ts => ts.groupATeam.toList ++ ts.groupBTeam.toList)

/-- The fields of a team record never touched by any engine. -/
def idFields (t : Team) : String × List String × String × String :=
  (t.name, t.availableSlots, t.email, t.phone)

/-- Availability containment of one (possibly updated) team record. -/
def assignOk (t : Team) : Prop :=
  ∀ s, t.assignedSlot = some s → s ∈ t.availableSlots

/-- Specification-side candidate list of §4.2: the team's availability
visited in slot-chronological (priority) order rather than declared
order. -/
def specCandidates (t : Team) : List String :=
  slotPriority.filter (fun s => s ∈ t.availableSlots)

/-- Specification-side placement of §4.2: the first candidate with a free
track, on the lowest-named free track. -/
def specFindPlacement (st : List TimeSlot) (t : Team) : Option (String × String) :=
  ((specCandidates t).find? (fun s =>
    match lookupSlot st s with
    | some ts => ts.hasSpace
    | none => false)).map (fun s =>
      (s,
        match lookupSlot st s with
        | some ts => if ts.groupATeam.isNone then "A" else "B"
        | none => "B"))

/-- The specification-side per-team step (same bookkeeping as
`greedyStep`, placement chosen by `specFindPlacement`). -/
def specStep (acc : List TimeSlot × List (Nat × Team)) (it : Nat × Team) :
    List TimeSlot × List (Nat × Team) :=
  if optTruthy it.2.assignedSlot then acc
  else
    match specFindPlacement acc.1 it.2 with
    | some (s, g) =>
      (placeAt acc.1 s g it.2.name,
        (it.1, { it.2 with assignedSlot := some s, assignedGroup := some g }) :: acc.2)
    | none =>
      (acc.1, (it.1, { it.2 with conflictReason := some (analyzeConflict it.2 acc.1) }) :: acc.2)

/-- The specification-side greedy engine of §4.2, word for word:
most-constrained-first stable order, chronological candidate scan,
lowest-named free track. -/
def specRunContinuous (teams : List Team) : RunResult :=
  let reset := teams.map resetTeam
  let sorted := sortTeamsByLen reset.enum
  let out := sorted.foldl specStep (initSlots, [])
  { state := out.1
    teams := reset.enum.map (fun it =>
      ((out.2.find? (fun u => u.1 = it.1)).map Prod.snd).getD it.2) }

/-- The strict most-constrained-first order of §4.2: ascending
availability size, ties broken by original input position. -/
def mcfOrder (a b : Nat × Team) : Prop :=
  a.2.availableSlots.length < b.2.availableSlots.length ∨
    (a.2.availableSlots.length = b.2.availableSlots.length ∧ a.1 < b.1)

end Adv

namespace Core

/-- The (slot id, track) pairs occupied by an extracted solution. -/
def assignmentPairs (res : List Sched) : List (String × Group) :=
  res.map (fun s => (s.slot.slotId, s.slot.group))

/-- Specification-side no-double-booking check on an extracted solution:
no (slot, track) pair occupied twice. -/
def noDoubleBookB (res : List Sched) : Bool :=
  ((assignmentPairs res).dedup).length == (assignmentPairs res).length

/-- Specification-side availability containment on an extracted solution:
every occupied slot identifier is a member of the team's declared
availability (the core model's declared time data is
`time_preferences`). -/
def availContainB (res : List Sched) : Bool :=
  res.all (fun sc => sc.team.timePreferences.contains sc.slot.slotId)

/-- Specification-side avoidance check on an extracted solution: no team
occupies a slot of a track staffed by an interviewer who must avoid it. -/
def avoidRespectB (cons : Constraint) (res : List Sched) : Bool :=
  res.all (fun sc =>
    cons.interviewerAvoidance.all (fun ia =>
      match lookupAssoc cons.interviewerGroups ia.1 with
      | some gs =>
        if (gs = "A" && sc.slot.group == Group.A) ||
            (gs = "B" && sc.slot.group == Group.B) then
          !(ia.2.contains sc.team.teamId)
        else true
      | none => true))

/-- The all-preference-variables-set assignment (maximal
`FIRST_PREFERENCE` objective). -/
def pAllTrue : PrefAsn := fun _ _ => true

end Core

/-! Concrete instances used by counterexamples and witnesses. -/

/-- A team that can only attend the first Friday slot. -/
def advT1 : Adv.Team := { name := "알파", availableSlots := ["9/12 19:00-19:45"] }

/-- A second team with the same single available slot. -/
def advT2 : Adv.Team := { name := "베타", availableSlots := ["9/12 19:00-19:45"] }

/-- A third team with the same single available slot (left unassigned). -/
def advT3 : Adv.Team := { name := "감마", availableSlots := ["9/12 19:00-19:45"] }

/-- A team with an empty availability list. -/
def advTEmpty : Adv.Team := { name := "델타", availableSlots := [] }

/-- The record `advT1` as left after one greedy run: assigned in place to
the first Friday slot, track A. -/
def advT1Assigned : Adv.Team :=
  { advT1 with
    assignedSlot := some ("9/12 19:00-19:45")
    assignedGroup := some ("A") }

/-- The slot state after greedily scheduling the one-Friday-slot team:
the day's occupied block sits at the start of the day. -/
def stC3 : List Adv.TimeSlot := (Adv.runContinuousOn [advT1]).state

/-- The slot state with the first Friday slot fully booked (both
tracks). -/
def stC9 : List Adv.TimeSlot := (Adv.runContinuousOn [advT1, advT2]).state

/-- The default slot universe of the core engine with placeholder dates
(the real dates come from `datetime.now()`). -/
def slots3 : List Core.Slot := Core.generateDefaultTimeSlots ("d0") ("d1") ("d2")

/-- Slot id of the first generated slot (day `d0`, 09:00, track A). -/
def sidA0 : String := "d0|09:00|A조"

/-- Core team `t1` with no declared preferences. -/
def coreT1 : Core.Team := { teamId := "t1", teamName := "팀1" }

/-- Core team `t2` with no declared preferences. -/
def coreT2 : Core.Team := { teamId := "t2", teamName := "팀2" }

/-- Empty constraint set. -/
def consEmpty : Core.Constraint := {}

/-- Schedule-variable assignment placing `t1` on the A-indexed variable
of the first A-slot and `t2` on the B-indexed variable of the same A-slot
(a group-mismatched variable). -/
def xC1 : Core.ScheduleAsn := fun tid sid g =>
  (tid == "t1" && sid == sidA0 && g == Core.Group.A) ||
    (tid == "t2" && sid == sidA0 && g == Core.Group.B)

/-- Group variables consistent with `xC1`. -/
def g2C1 : Core.GroupAsn := fun tid g => tid == "t1" && g == Core.Group.A

/-- The extraction of `xC1`: both teams in the same physical (slot,
track) pair. -/
def exC1 : List Core.Sched :=
  Core.extractSolution [coreT1, coreT2] slots3 xC1 Core.pAllTrue

/-- Schedule-variable assignment placing the preference-less `t1` on the
matched variable of the first A-slot. -/
def xC2 : Core.ScheduleAsn := fun tid sid g =>
  tid == "t1" && sid == sidA0 && g == Core.Group.A

/-- The extraction of `xC2`. -/
def exC2 : List Core.Sched := Core.extractSolution [coreT1] slots3 xC2 Core.pAllTrue

/-- Avoidance constraints: interviewer `면접관1` staffs track A and must
avoid team `t1`. -/
def consC7 : Core.Constraint :=
  { interviewerAvoidance := [("면접관1", ["t1"])]
    interviewerGroups := [("면접관1", "A")] }

/-- Schedule-variable assignment placing `t1` on the B-indexed
(group-mismatched) variable of the first A-slot. -/
def xC7 : Core.ScheduleAsn := fun tid sid g =>
  tid == "t1" && sid == sidA0 && g == Core.Group.B

/-- The all-false group-variable assignment. -/
def g2None : Core.GroupAsn := fun _ _ => false

/-- The extraction of `xC7`: `t1` lands in a physical track-A slot. -/
def exC7 : List Core.Sched := Core.extractSolution [coreT1] slots3 xC7 Core.pAllTrue

/-- 169 teams: one more than the 168 (slot, group-index) variable keys of
the default 84-slot universe, making the hard constraints infeasible. -/
def teams169 : List Core.Team :=
  (List.range 169).map (fun i => { teamId := toString i, teamName := toString i })

/-- Schedule-variable assignment placing `t1` legitimately on the
group-matched variable of the first B-slot. -/
def xW7 : Core.ScheduleAsn := fun tid sid g =>
  tid == "t1" && sid == "d0|09:00|B조" && g == Core.Group.B

/-- Group variables consistent with `xW7`. -/
def g2W7 : Core.GroupAsn := fun tid g =>
  tid == "t1" && g == Core.Group.B

/-- The first generated slot of the default universe (day `d0`, 09:00,
track A). -/
def sW7 : Core.Slot :=
  { slotId := "d0|09:00|A조", date := "d0", startTime := "09:00"
    endTime := "09:30", group := Core.Group.A }

/-- Single-track team that can attend slots `s1` and `s2`. -/
def optW5a : Opt.Team := { name := "하나", availableSlots := ["s1", "s2"] }

/-- Single-track team that can only attend slot `s1`. -/
def optW5b : Opt.Team := { name := "둘", availableSlots := ["s1"] }

/-- A slot record of the default universe carrying the given per-key
track occupancies: run states differ from `Adv.initSlots` only in the
two occupant fields. -/
def alignSlot (fA fB : String → Option String) (ts : Adv.TimeSlot) :
    Adv.TimeSlot :=
  { date := ts.date
    time := ts.time
    fullSlot := ts.fullSlot
    groupATeam := fA ts.fullSlot
    groupBTeam := fB ts.fullSlot }

/-- A slot state reachable by the continuous engine: the default slot
universe under some per-key occupancy functions. -/
def Aligned (st : List Adv.TimeSlot) : Prop :=
  ∃ fA fB, st = Adv.initSlots.map (alignSlot fA fB)

/-- Sequential override of a per-key occupancy function by an association
list, as performed by the replay folds of `optimize_schedule`'s
state-restoration step. -/
def overrideList (g : String → Option String) :
    List (String × String) → String → Option String
  | [], k => g k
  | p :: rest, k =>
    overrideList (fun k0 => if k0 = p.1 then some p.2 else g k0) rest k

/-- The lexicographic (assigned-count, gap-score) "at least as good"
order on iteration measurements: `b1` is retained against `b2`. -/
def geB (b1 b2 : Adv.Best) : Prop :=
  b2.count ≤ b1.count ∧ (b2.count = b1.count → b1.gapScore ≤ b2.gapScore)

/-! ### Helper lemmas -/

/-- Once a session is open, `gapWalk` counts every remaining empty slot. -/
theorem gapWalk_true (flags : List Bool) :
    Adv.gapWalk true flags = flags.count false := by
  induction flags with
  | nil => rfl
  | cons b rest ih =>
    cases b with
    | false => simp [Adv.gapWalk, ih, List.count_cons, Nat.add_comm]
    | true => simp [Adv.gapWalk, ih, List.count_cons]

/-- The day walk of `_calculate_gap_score` counts the empty slots after
the first occupied one, trailing empties included. -/
theorem gapWalk_false (flags : List Bool) :
    Adv.gapWalk false flags = Adv.afterFirstEmpties flags := by
  induction flags with
  | nil => rfl
  | cons b rest ih =>
    cases b with
    | false =>
      simpa [Adv.gapWalk, Adv.afterFirstEmpties, List.dropWhile] using ih
    | true =>
      simp [Adv.gapWalk, Adv.afterFirstEmpties, List.dropWhile, gapWalk_true,
        List.count_cons]

/-- Membership in a stable insertion. -/
theorem mem_insertByLen {x a : Nat × Adv.Team} {l : List (Nat × Adv.Team)} :
    a ∈ Adv.insertByLen x l ↔ a = x ∨ a ∈ l := by
  induction l with
  | nil => simp [Adv.insertByLen]
  | cons y ys ih =>
    simp only [Adv.insertByLen]
    split
    · simp only [List.mem_cons, ih]
      constructor
      · rintro (h | h) <;> tauto
      · rintro (h | h | h) <;> tauto
    · constructor
      · rintro h
        rcases List.mem_cons.mp h with h | h
        · exact Or.inl h
        · exact Or.inr h
      · rintro (h | h)
        · exact h ▸ List.mem_cons_self _ _
        · exact List.mem_cons_of_mem _ h

/-- A stable insertion permutes a cons. -/
theorem insertByLen_perm (x : Nat × Adv.Team) (l : List (Nat × Adv.Team)) :
    (Adv.insertByLen x l).Perm (x :: l) := by
  induction l with
  | nil => exact List.Perm.refl _
  | cons y ys ih =>
    simp only [Adv.insertByLen]
    split
    · exact (ih.cons y).trans (List.Perm.swap x y ys)
    · exact List.Perm.refl _

/-- The insertion-sort fold permutes its input. -/
theorem sortFold_perm :
    ∀ (l acc : List (Nat × Adv.Team)),
      (l.foldl (fun acc x => Adv.insertByLen x acc) acc).Perm (acc ++ l) := by
  intro l
  induction l with
  | nil => intro acc; simp
  | cons x xs ih =>
    intro acc
    have h1 : (xs.foldl (fun acc x => Adv.insertByLen x acc)
        (Adv.insertByLen x acc)).Perm (Adv.insertByLen x acc ++ xs) := ih _
    have h2 : (Adv.insertByLen x acc ++ xs).Perm ((x :: acc) ++ xs) :=
      (insertByLen_perm x acc).append_right xs
    have h3 : (acc ++ x :: xs).Perm (x :: (acc ++ xs)) := List.perm_middle
    simpa using (h1.trans h2).trans h3.symm

/-- The engine's stable MRV sort permutes the team list. -/
theorem sortTeamsByLen_perm (l : List (Nat × Adv.Team)) :
    (Adv.sortTeamsByLen l).Perm l := by
  simpa [Adv.sortTeamsByLen] using sortFold_perm l []

/-- What a successful placement scan guarantees: the slot is in the
team's availability, it exists in the state, it has space, and the track
is "A" exactly when track A is free. -/
theorem findPlacement_sound :
    ∀ (l : List String) (st : List Adv.TimeSlot) (t : Adv.Team) (s g : String),
      Adv.findPlacement st t l = some (s, g) →
      s ∈ t.availableSlots ∧ ∃ ts, Adv.lookupSlot st s = some ts ∧
        ts.hasSpace = true ∧
        ((g = "A" ∧ ts.groupATeam = none) ∨
          (g = "B" ∧ ts.groupATeam.isSome = true ∧ ts.groupBTeam = none)) := by
  intro l
  induction l with
  | nil =>
    intro st t s g h
    simp [Adv.findPlacement] at h
  | cons s0 rest ih =>
    intro st t s g h
    simp only [Adv.findPlacement] at h
    split at h
    · rename_i hmem
      split at h
      · rename_i ts hls
        split at h
        · rename_i hsp
          have hpair := Option.some.inj h
          have hs0 : s0 = s := congrArg Prod.fst hpair
          have hg : (if ts.getAvailableGroup = some ("A") then "A" else "B") = g :=
            congrArg Prod.snd hpair
          subst hs0
          refine ⟨hmem, ts, hls, hsp, ?_⟩
          cases hA : ts.groupATeam with
          | none =>
            left
            refine ⟨?_, rfl⟩
            rw [← hg]
            simp [Adv.TimeSlot.getAvailableGroup, hA]
          | some a =>
            right
            cases hB : ts.groupBTeam with
            | none =>
              refine ⟨?_, by simp [hA], rfl⟩
              rw [← hg]
              simp [Adv.TimeSlot.getAvailableGroup, hA, hB]
            | some b =>
              exfalso
              rename_i hsp2
              simp [Adv.TimeSlot.hasSpace, hA, hB] at hsp
        · exact ih st t s g h
      · exact ih st t s g h
    · exact ih st t s g h

/-- A key-preserving slot update leaves the key list unchanged. -/
theorem keys_updateSlot (st : List Adv.TimeSlot) (s : String)
    (f : Adv.TimeSlot → Adv.TimeSlot) (hf : ∀ ts, (f ts).fullSlot = ts.fullSlot) :
    (Adv.updateSlot st s f).map (fun ts => ts.fullSlot) =
      st.map (fun ts => ts.fullSlot) := by
  induction st with
  | nil => rfl
  | cons h0 rest ih =>
    simp only [Adv.updateSlot, List.map_cons] at *
    have hh : (if h0.fullSlot = s then f h0 else h0).fullSlot = h0.fullSlot := by
      split
      · exact hf h0
      · rfl
    rw [hh, ih]

/-- Placing a team never changes the key list. -/
theorem keys_placeAt (st : List Adv.TimeSlot) (s g name : String) :
    (Adv.placeAt st s g name).map (fun ts => ts.fullSlot) =
      st.map (fun ts => ts.fullSlot) := by
  apply keys_updateSlot
  intro ts
  by_cases hg : g = "A" <;> simp [hg]

/-- The initial slot dictionary is keyed exactly by `allSlots`. -/
theorem initSlots_keys :
    Adv.initSlots.map (fun ts => ts.fullSlot) = Adv.allSlots := by
  simp [Adv.initSlots, List.map_map]
  exact List.map_id _

/-- The 36 slot identifiers are pairwise distinct. -/
theorem allSlots_nodup : Adv.allSlots.Nodup := by decide

/-- `occupants` over a cons. -/
theorem occupants_cons (ts : Adv.TimeSlot) (rest : List Adv.TimeSlot) :
    Adv.occupants (ts :: rest) =
      (ts.groupATeam.toList ++ ts.groupBTeam.toList) ++ Adv.occupants rest := by
  simp [Adv.occupants]

/-- Updating an absent key is a no-op. -/
theorem updateSlot_of_not_mem (st : List Adv.TimeSlot) (s : String)
    (f : Adv.TimeSlot → Adv.TimeSlot) (h : ∀ ts ∈ st, ¬ ts.fullSlot = s) :
    Adv.updateSlot st s f = st := by
  induction st with
  | nil => rfl
  | cons h0 rest ih =>
    simp only [Adv.updateSlot, List.map_cons]
    rw [if_neg (h h0 (List.mem_cons_self _ _))]
    have := ih (fun ts hts => h ts (List.mem_cons_of_mem _ hts))
    simpa [Adv.updateSlot] using this

/-- Placing a fresh name into a free track adds exactly that name to the
occupant list (up to permutation). -/
theorem occ_placeAt (st : List Adv.TimeSlot) (s g name : String)
    (ts : Adv.TimeSlot)
    (hnd : (st.map (fun x => x.fullSlot)).Nodup)
    (hl : Adv.lookupSlot st s = some ts)
    (hfree : (g = "A" ∧ ts.groupATeam = none) ∨ (g = "B" ∧ ts.groupBTeam = none)) :
    (Adv.occupants (Adv.placeAt st s g name)).Perm (name :: Adv.occupants st) := by
  induction st with
  | nil => simp [Adv.lookupSlot] at hl
  | cons h0 rest ih =>
    by_cases hk : h0.fullSlot = s
    · have hts : h0 = ts := by
        have : Adv.lookupSlot (h0 :: rest) s = some h0 :=
          List.find?_cons_of_pos _ (by simp [hk])
        rw [this] at hl
        exact Option.some.inj hl
      have htail : ∀ x ∈ rest, ¬ x.fullSlot = s := by
        intro x hx hxs
        simp only [List.map_cons, List.nodup_cons] at hnd
        exact hnd.1 (hk ▸ hxs ▸ List.mem_map_of_mem (fun y => y.fullSlot) hx)
      have hrest : Adv.updateSlot rest s
          (fun x => if g = "A" then { x with groupATeam := some name }
            else { x with groupBTeam := some name }) = rest :=
        updateSlot_of_not_mem _ _ _ htail
      have hrest' : rest.map (fun x => if x.fullSlot = s then
          (if g = "A" then { x with groupATeam := some name }
            else { x with groupBTeam := some name }) else x) = rest := by
        simpa [Adv.updateSlot] using hrest
      have hplace : Adv.placeAt (h0 :: rest) s g name =
          (if g = "A" then { h0 with groupATeam := some name }
            else { h0 with groupBTeam := some name }) :: rest := by
        simp only [Adv.placeAt, Adv.updateSlot, List.map_cons, if_pos hk, hrest']
      rw [hplace]
      rcases hfree with ⟨hg, hA⟩ | ⟨hg, hB⟩
      · subst hg
        have hA0 : h0.groupATeam = none := hts ▸ hA
        rw [occupants_cons, occupants_cons, if_pos rfl]
        simp only [hA0, Option.toList_none, Option.toList_some, List.nil_append]
        exact List.Perm.refl _
      · subst hg
        have hB0 : h0.groupBTeam = none := hts ▸ hB
        rw [occupants_cons, occupants_cons,
          if_neg (by decide : ¬ ("B" : String) = "A")]
        simp only [hB0, Option.toList_none, Option.toList_some, List.append_nil]
        rw [List.append_assoc]
        exact List.perm_middle
    · have hl2 : Adv.lookupSlot rest s = some ts := by
        have heq : Adv.lookupSlot (h0 :: rest) s = Adv.lookupSlot rest s := by
          simp only [Adv.lookupSlot]
          exact List.find?_cons_of_neg _ (by simp [hk])
        rw [← heq]
        exact hl
      have hnd2 : (rest.map (fun x => x.fullSlot)).Nodup := by
        simp only [List.map_cons, List.nodup_cons] at hnd
        exact hnd.2
      have ihr := ih hnd2 hl2
      have hplace : Adv.placeAt (h0 :: rest) s g name =
          h0 :: Adv.placeAt rest s g name := by
        simp only [Adv.placeAt, Adv.updateSlot, List.map_cons, if_neg hk]
      rw [hplace, occupants_cons, occupants_cons]
      exact (ihr.append_left _).trans List.perm_middle

/-- Invariant of the placement loop of `schedule_interviews_continuous`:
the slot keys stay `allSlots`, occupant names stay duplicate-free (and
come from the processed teams), and every recorded team update keeps its
identity fields and only assigns slots from its own availability. -/
theorem greedy_fold_invariant :
    ∀ (l : List (Nat × Adv.Team)) (st : List Adv.TimeSlot)
      (ups : List (Nat × Adv.Team)),
      st.map (fun ts => ts.fullSlot) = Adv.allSlots →
      (Adv.occupants st).Nodup →
      (∀ n ∈ Adv.occupants st, n ∉ l.map (fun it => it.2.name)) →
      (l.map (fun it => it.2.name)).Nodup →
      (∀ it ∈ l, it.2.assignedSlot = none) →
      ((l.foldl Adv.greedyStep (st, ups)).1.map (fun ts => ts.fullSlot) =
          Adv.allSlots ∧
        (Adv.occupants (l.foldl Adv.greedyStep (st, ups)).1).Nodup ∧
        (∀ n ∈ Adv.occupants (l.foldl Adv.greedyStep (st, ups)).1,
          n ∈ l.map (fun it => it.2.name) ∨ n ∈ Adv.occupants st) ∧
        (∀ u ∈ (l.foldl Adv.greedyStep (st, ups)).2, u ∈ ups ∨
          ∃ it, it ∈ l ∧ it.1 = u.1 ∧ Adv.idFields u.2 = Adv.idFields it.2 ∧
            Adv.assignOk u.2)) := by
  intro l
  induction l with
  | nil =>
    intro st ups hkeys hnd _ _ _
    exact ⟨hkeys, hnd, fun n hn => Or.inr hn, fun u hu => Or.inl hu⟩
  | cons hd tl ih =>
    intro st ups hkeys hnd hfresh hnames hreset
    have hhd : hd.2.assignedSlot = none := hreset hd (List.mem_cons_self _ _)
    have hguard : Adv.optTruthy hd.2.assignedSlot = false := by
      rw [hhd]; rfl
    have hstep : Adv.greedyStep (st, ups) hd =
        match Adv.findPlacement st hd.2 Adv.slotPriority with
        | some (s, g) =>
          (Adv.placeAt st s g hd.2.name,
            (hd.1, { hd.2 with assignedSlot := some s, assignedGroup := some g })
              :: ups)
        | none =>
          (st, (hd.1, { hd.2 with
            conflictReason := some (Adv.analyzeConflict hd.2 st) }) :: ups) := by
      simp only [Adv.greedyStep, hguard, Bool.false_eq_true, if_false]
    have hnames_tl : (tl.map (fun it => it.2.name)).Nodup := by
      simpa using hnames.of_cons
    have hreset_tl : ∀ it ∈ tl, it.2.assignedSlot = none :=
      fun it hit => hreset it (List.mem_cons_of_mem _ hit)
    rw [List.foldl_cons, hstep]
    cases hfp : Adv.findPlacement st hd.2 Adv.slotPriority with
    | none =>
      have hfresh_tl : ∀ n ∈ Adv.occupants st,
          n ∉ tl.map (fun it => it.2.name) := by
        intro n hn hmem
        exact hfresh n hn (by simpa using Or.inr hmem)
      obtain ⟨c1, c2, c3, c4⟩ := ih st
        ((hd.1, { hd.2 with
          conflictReason := some (Adv.analyzeConflict hd.2 st) }) :: ups)
        hkeys hnd hfresh_tl hnames_tl hreset_tl
      refine ⟨c1, c2, ?_, ?_⟩
      · intro n hn
        rcases c3 n hn with h | h
        · exact Or.inl (by simpa using Or.inr (by simpa using h))
        · exact Or.inr h
      · intro u hu
        rcases c4 u hu with h | ⟨it, hit, h1, h2, h3⟩
        · rcases List.mem_cons.mp h with h | h
          · subst h
            refine Or.inr ⟨hd, List.mem_cons_self _ _, rfl, rfl, ?_⟩
            intro s hs
            rw [hhd] at hs
            cases hs
          · exact Or.inl h
        · exact Or.inr ⟨it, List.mem_cons_of_mem _ hit, h1, h2, h3⟩
    | some sg =>
      obtain ⟨s, g⟩ := sg
      obtain ⟨hmem, ts, hls, hsp, hcase⟩ :=
        findPlacement_sound Adv.slotPriority st hd.2 s g hfp
      have hndkeys : (st.map (fun x => x.fullSlot)).Nodup := by
        rw [hkeys]; exact allSlots_nodup
      have hfree : (g = "A" ∧ ts.groupATeam = none) ∨
          (g = "B" ∧ ts.groupBTeam = none) := by
        rcases hcase with ⟨hg, hA⟩ | ⟨hg, _, hB⟩
        · exact Or.inl ⟨hg, hA⟩
        · exact Or.inr ⟨hg, hB⟩
      have hperm := occ_placeAt st s g hd.2.name ts hndkeys hls hfree
      have hfreshname : hd.2.name ∉ Adv.occupants st := by
        intro hin
        exact hfresh _ hin (by simp)
      have hnd2 : (Adv.occupants (Adv.placeAt st s g hd.2.name)).Nodup :=
        hperm.nodup_iff.mpr (List.nodup_cons.mpr ⟨hfreshname, hnd⟩)
      have hkeys2 : (Adv.placeAt st s g hd.2.name).map (fun x => x.fullSlot) =
          Adv.allSlots := by
        rw [keys_placeAt]; exact hkeys
      have hfresh2 : ∀ n ∈ Adv.occupants (Adv.placeAt st s g hd.2.name),
          n ∉ tl.map (fun it => it.2.name) := by
        intro n hn hmem
        rcases List.mem_cons.mp (hperm.mem_iff.mp hn) with h | h
        · subst h
          have : hd.2.name ∉ tl.map (fun it => it.2.name) := by
            have := hnames
            simp only [List.map_cons, List.nodup_cons] at this
            exact this.1
          exact this hmem
        · exact hfresh n h (by simpa using Or.inr hmem)
      obtain ⟨c1, c2, c3, c4⟩ := ih (Adv.placeAt st s g hd.2.name)
        ((hd.1, { hd.2 with assignedSlot := some s, assignedGroup := some g })
          :: ups)
        hkeys2 hnd2 hfresh2 hnames_tl hreset_tl
      refine ⟨c1, c2, ?_, ?_⟩
      · intro n hn
        rcases c3 n hn with h | h
        · exact Or.inl (by simpa using Or.inr (by simpa using h))
        · rcases List.mem_cons.mp (hperm.mem_iff.mp h) with h2 | h2
          · exact Or.inl (by simp [h2])
          · exact Or.inr h2
      · intro u hu
        rcases c4 u hu with h | ⟨it, hit, h1, h2, h3⟩
        · rcases List.mem_cons.mp h with h | h
          · subst h
            refine Or.inr ⟨hd, List.mem_cons_self _ _, rfl, rfl, ?_⟩
            intro s' hs'
            have : s = s' := by
              simpa using hs'
            exact this ▸ hmem
          · exact Or.inl h
        · exact Or.inr ⟨it, List.mem_cons_of_mem _ hit, h1, h2, h3⟩

/-- Update-list invariant of the placement loop, with no assumptions on
the slot state: recorded updates keep identity fields and assign only
slots from the team's own availability. -/
theorem greedy_fold_updates :
    ∀ (l : List (Nat × Adv.Team)) (st : List Adv.TimeSlot)
      (ups : List (Nat × Adv.Team)),
      (∀ it ∈ l, it.2.assignedSlot = none) →
      ∀ u ∈ (l.foldl Adv.greedyStep (st, ups)).2, u ∈ ups ∨
        ∃ it, it ∈ l ∧ it.1 = u.1 ∧ Adv.idFields u.2 = Adv.idFields it.2 ∧
          Adv.assignOk u.2 := by
  intro l
  induction l with
  | nil =>
    intro st ups _ u hu
    exact Or.inl hu
  | cons hd tl ih =>
    intro st ups hreset u hu
    have hhd : hd.2.assignedSlot = none := hreset hd (List.mem_cons_self _ _)
    have hguard : Adv.optTruthy hd.2.assignedSlot = false := by
      rw [hhd]; rfl
    have hreset_tl : ∀ it ∈ tl, it.2.assignedSlot = none :=
      fun it hit => hreset it (List.mem_cons_of_mem _ hit)
    rw [List.foldl_cons] at hu
    have hstep : Adv.greedyStep (st, ups) hd =
        match Adv.findPlacement st hd.2 Adv.slotPriority with
        | some (s, g) =>
          (Adv.placeAt st s g hd.2.name,
            (hd.1, { hd.2 with assignedSlot := some s, assignedGroup := some g })
              :: ups)
        | none =>
          (st, (hd.1, { hd.2 with
            conflictReason := some (Adv.analyzeConflict hd.2 st) }) :: ups) := by
      simp only [Adv.greedyStep, hguard, Bool.false_eq_true, if_false]
    rw [hstep] at hu
    cases hfp : Adv.findPlacement st hd.2 Adv.slotPriority with
    | none =>
      rw [hfp] at hu
      rcases ih st _ hreset_tl u hu with h | ⟨it, hit, h1, h2, h3⟩
      · rcases List.mem_cons.mp h with h | h
        · subst h
          refine Or.inr ⟨hd, List.mem_cons_self _ _, rfl, rfl, ?_⟩
          intro s hs
          rw [hhd] at hs
          cases hs
        · exact Or.inl h
      · exact Or.inr ⟨it, List.mem_cons_of_mem _ hit, h1, h2, h3⟩
    | some sg =>
      obtain ⟨s, g⟩ := sg
      rw [hfp] at hu
      obtain ⟨hmem, _, _, _, _⟩ :=
        findPlacement_sound Adv.slotPriority st hd.2 s g hfp
      rcases ih _ _ hreset_tl u hu with h | ⟨it, hit, h1, h2, h3⟩
      · rcases List.mem_cons.mp h with h | h
        · subst h
          refine Or.inr ⟨hd, List.mem_cons_self _ _, rfl, rfl, ?_⟩
          intro s' hs'
          have : s = s' := by simpa using hs'
          exact this ▸ hmem
        · exact Or.inl h
      · exact Or.inr ⟨it, List.mem_cons_of_mem _ hit, h1, h2, h3⟩

/-- No occupants in the freshly initialized slot dictionary. -/
theorem occupants_init : Adv.occupants Adv.initSlots = [] := by decide

/-- The second components of an enum are the original list. -/
theorem enum_snd_mem {α : Type} {l : List α} {it : Nat × α} (h : it ∈ l.enum) :
    it.2 ∈ l := by
  have : it.2 ∈ l.enum.map Prod.snd := List.mem_map_of_mem _ h
  simpa [List.enum_map_snd] using this

/-- An index determines the entry of an enum. -/
theorem enum_key_eq {α : Type} {l : List α} {i : Nat} {a b : α}
    (ha : (i, a) ∈ l.enum) (hb : (i, b) ∈ l.enum) : a = b := by
  rw [List.mem_enum_iff_getElem?] at ha hb
  simp only at ha hb
  rw [ha] at hb
  exact Option.some.inj hb

/-- Mapping a function of the entry over `enumFrom` forgets the indices. -/
theorem map_snd_enumFrom {α β : Type} (f : α → β) :
    ∀ (n : Nat) (l : List α),
      (List.enumFrom n l).map (fun it => f it.2) = l.map f := by
  intro n l
  induction l generalizing n with
  | nil => rfl
  | cons a tl ih => simp [List.enumFrom, ih]

/-- Mapping a function of the entry over `enum` forgets the indices. -/
theorem map_snd_enum {α β : Type} (f : α → β) (l : List α) :
    (l.enum.map (fun it => f it.2)) = l.map f :=
  map_snd_enumFrom f 0 l

/-- Names of the enumerated reset team list. -/
theorem reset_enum_names (teams : List Adv.Team) :
    ((teams.map Adv.resetTeam).enum.map (fun it => it.2.name)) =
      teams.map (fun t => t.name) := by
  have h := map_snd_enum (fun t : Adv.Team => t.name) (teams.map Adv.resetTeam)
  refine h.trans ?_
  rw [List.map_map]
  rfl

/-- MRV-sorted items of the run come from the enumerated reset list. -/
theorem sorted_sub (teams : List Adv.Team) :
    ∀ it ∈ Adv.sortTeamsByLen (teams.map Adv.resetTeam).enum,
      it ∈ (teams.map Adv.resetTeam).enum :=
  fun _ hit => (sortTeamsByLen_perm _).mem_iff.mp hit

/-- State facts of one greedy run, for duplicate-free team names: the
slot keys are `allSlots` and no occupant name repeats. -/
theorem runContinuous_state_facts (teams : List Adv.Team)
    (hnd : (teams.map (fun t => t.name)).Nodup) :
    (Adv.runContinuousOn teams).state.map (fun ts => ts.fullSlot) =
        Adv.allSlots ∧
      (Adv.occupants (Adv.runContinuousOn teams).state).Nodup := by
  have hnames : ((Adv.sortTeamsByLen (teams.map Adv.resetTeam).enum).map
      (fun it => it.2.name)).Nodup := by
    have hperm : ((Adv.sortTeamsByLen (teams.map Adv.resetTeam).enum).map
        (fun it => it.2.name)).Perm
        ((teams.map Adv.resetTeam).enum.map (fun it => it.2.name)) :=
      (sortTeamsByLen_perm _).map _
    rw [hperm.nodup_iff, reset_enum_names]
    exact hnd
  have hreset : ∀ it ∈ Adv.sortTeamsByLen (teams.map Adv.resetTeam).enum,
      it.2.assignedSlot = none := by
    intro it hit
    have h2 := enum_snd_mem (sorted_sub teams it hit)
    rcases List.mem_map.mp h2 with ⟨t, _, ht⟩
    rw [← ht]
    rfl
  have hfresh : ∀ n ∈ Adv.occupants Adv.initSlots,
      n ∉ (Adv.sortTeamsByLen (teams.map Adv.resetTeam).enum).map
        (fun it => it.2.name) := by
    rw [occupants_init]
    intro n hn
    cases hn
  obtain ⟨c1, c2, _, _⟩ := greedy_fold_invariant
    (Adv.sortTeamsByLen (teams.map Adv.resetTeam).enum)
    Adv.initSlots [] initSlots_keys (by rw [occupants_init]; exact List.nodup_nil)
    hfresh hnames hreset
  exact ⟨c1, c2⟩

/-- Every team record returned by one greedy run satisfies availability
containment. -/
theorem runContinuous_assignOk (teams : List Adv.Team) :
    ∀ t' ∈ (Adv.runContinuousOn teams).teams, Adv.assignOk t' := by
  intro t' ht'
  have hreset : ∀ it ∈ Adv.sortTeamsByLen (teams.map Adv.resetTeam).enum,
      it.2.assignedSlot = none := by
    intro it hit
    have h2 := enum_snd_mem (sorted_sub teams it hit)
    rcases List.mem_map.mp h2 with ⟨t, _, ht⟩
    rw [← ht]
    rfl
  rcases List.mem_map.mp ht' with ⟨it, hit, hdef⟩
  cases hfind : ((Adv.sortTeamsByLen (teams.map Adv.resetTeam).enum).foldl
      Adv.greedyStep (Adv.initSlots, [])).2.find? (fun u => u.1 = it.1) with
  | none =>
    rw [hfind] at hdef
    simp only [Option.map_none', Option.getD_none] at hdef
    have h2 := enum_snd_mem hit
    rcases List.mem_map.mp h2 with ⟨t, _, ht⟩
    intro s hs
    rw [← hdef, ← ht] at hs
    cases hs
  | some u =>
    rw [hfind] at hdef
    simp only [Option.map_some', Option.getD_some] at hdef
    have humem := List.mem_of_find?_eq_some hfind
    rcases greedy_fold_updates _ Adv.initSlots [] hreset u humem with h | ⟨_, _, _, _, h3⟩
    · cases h
    · rw [← hdef]
      exact h3

/-- One greedy run never changes a team's identity fields, nor the team
list order. -/
theorem runContinuous_idFields (teams : List Adv.Team) :
    (Adv.runContinuousOn teams).teams.map Adv.idFields =
      teams.map Adv.idFields := by
  have hreset : ∀ it ∈ Adv.sortTeamsByLen (teams.map Adv.resetTeam).enum,
      it.2.assignedSlot = none := by
    intro it hit
    have h2 := enum_snd_mem (sorted_sub teams it hit)
    rcases List.mem_map.mp h2 with ⟨t, _, ht⟩
    rw [← ht]
    rfl
  have hpt : ∀ it ∈ (teams.map Adv.resetTeam).enum,
      Adv.idFields (((((Adv.sortTeamsByLen (teams.map Adv.resetTeam).enum).foldl
          Adv.greedyStep (Adv.initSlots, [])).2.find?
          (fun u => u.1 = it.1)).map Prod.snd).getD it.2) =
        Adv.idFields it.2 := by
    intro it hit
    cases hfind : ((Adv.sortTeamsByLen (teams.map Adv.resetTeam).enum).foldl
        Adv.greedyStep (Adv.initSlots, [])).2.find? (fun u => u.1 = it.1) with
    | none => rfl
    | some u =>
      simp only [Option.map_some', Option.getD_some]
      have humem := List.mem_of_find?_eq_some hfind
      have hkeyb := List.find?_some hfind
      have hkey2 : u.1 = it.1 := by simpa using hkeyb
      rcases greedy_fold_updates _ Adv.initSlots [] hreset u humem with
        h | ⟨it2, hit2, h1, h2, _⟩
      · cases h
      · have hit2e : it2 ∈ (teams.map Adv.resetTeam).enum := sorted_sub teams it2 hit2
        have : it2.2 = it.2 := by
          have ha : (it.1, it2.2) ∈ (teams.map Adv.resetTeam).enum := by
            have : it2 = (it2.1, it2.2) := rfl
            rw [this, h1, hkey2] at hit2e
            exact hit2e
          have hb : (it.1, it.2) ∈ (teams.map Adv.resetTeam).enum := by
            have : it = (it.1, it.2) := rfl
            rw [this] at hit
            exact hit
          exact enum_key_eq ha hb
        rw [h2, this]
  have hmapeq : (Adv.runContinuousOn teams).teams.map Adv.idFields =
      (teams.map Adv.resetTeam).enum.map (fun it => Adv.idFields it.2) := by
    simp only [Adv.runContinuousOn, List.map_map]
    exact List.map_congr_left hpt
  rw [hmapeq]
  have h := map_snd_enum Adv.idFields (teams.map Adv.resetTeam)
  refine h.trans ?_
  rw [List.map_map]
  rfl

/-! ### Claim C3 -/

/-- C3, counterexample: with only the first Friday slot occupied, the
code's gap score is 3 (the three trailing Friday slots), while the
claim's strictly-between reading yields 0, so the two disagree. -/
theorem C3_counterexample :
    Adv.calcGapScore stC3 = 3 ∧ Adv.gapScoreStrictSpec stC3 = 0 ∧
      Adv.calcGapScore stC3 ≠ Adv.gapScoreStrictSpec stC3 :=
  ⟨by decide, by decide, by decide⟩

/-- C3, amended: the gap score equals, for each (date, track) pair, the
number of empty slots after the first occupied slot of that track on that
date — empty slots after the last occupied slot of the day are counted
too. -/
theorem C3_gap_counts_all_after_first (st : List Adv.TimeSlot) :
    Adv.calcGapScore st = Adv.gapScoreAfterFirstSpec st := by
  simp [Adv.calcGapScore, Adv.gapScoreAfterFirstSpec, gapWalk_false]

/-- The engine's priority scan equals a find-first over the candidates
filtered from the scanned list. -/
theorem findPlacement_filter (st : List Adv.TimeSlot) (t : Adv.Team) :
    ∀ l : List String,
      Adv.findPlacement st t l =
        ((l.filter (fun s => s ∈ t.availableSlots)).find? (fun s =>
          match Adv.lookupSlot st s with
          | some ts => ts.hasSpace
          | none => false)).map (fun s =>
            (s, match Adv.lookupSlot st s with
                | some ts => if ts.groupATeam.isNone then "A" else "B"
                | none => "B")) := by
  intro l
  induction l with
  | nil => rfl
  | cons s0 rest ih =>
    simp only [Adv.findPlacement]
    by_cases hmem : s0 ∈ t.availableSlots
    · rw [if_pos hmem, List.filter_cons_of_pos (by simpa using hmem)]
      cases hls : Adv.lookupSlot st s0 with
      | none =>
        rw [List.find?_cons_of_neg _ (by simp [hls])]
        exact ih
      | some ts =>
        by_cases hsp : ts.hasSpace = true
        · rw [List.find?_cons_of_pos _ (by simp [hls, hsp])]
          simp only [Option.map_some', hls, hsp, if_true]
          cases hA : ts.groupATeam with
          | none => simp [Adv.TimeSlot.getAvailableGroup, hA]
          | some a =>
            cases hB : ts.groupBTeam with
            | none => simp [Adv.TimeSlot.getAvailableGroup, hA, hB]
            | some b => simp [Adv.TimeSlot.getAvailableGroup, hA, hB]
        · rw [List.find?_cons_of_neg _ (by simp [hls, hsp])]
          rw [Bool.not_eq_true] at hsp
          simp only [hsp, Bool.false_eq_true, if_false]
          exact ih
    · rw [if_neg hmem, List.filter_cons_of_neg (by simpa using hmem)]
      exact ih

/-- On the slot priority list the engine's scan coincides with the
specification's candidate scan. -/
theorem findPlacement_eq_spec (st : List Adv.TimeSlot) (t : Adv.Team) :
    Adv.findPlacement st t Adv.slotPriority = Adv.specFindPlacement st t :=
  findPlacement_filter st t Adv.slotPriority

/-- The per-team step of the engine is the specification's step. -/
theorem greedyStep_eq_spec : Adv.greedyStep = Adv.specStep := by
  funext acc it
  simp only [Adv.greedyStep, Adv.specStep, findPlacement_eq_spec]

/-- Indices in an `enumFrom` are at least the start index. -/
theorem le_fst_of_mem_enumFrom {α : Type} {y : Nat × α} :
    ∀ {m : Nat} {l : List α}, y ∈ List.enumFrom m l → m ≤ y.1 := by
  intro m l
  induction l generalizing m with
  | nil => intro h; cases h
  | cons a tl ih =>
    intro h
    rcases List.mem_cons.mp h with h | h
    · subst h; exact Nat.le_refl _
    · exact Nat.le_of_succ_le (ih h)

/-- Indices in an `enumFrom` are strictly increasing. -/
theorem pairwise_fst_lt_enumFrom {α : Type} :
    ∀ (n : Nat) (l : List α),
      List.Pairwise (fun a b : Nat × α => a.1 < b.1) (List.enumFrom n l) := by
  intro n l
  induction l generalizing n with
  | nil => exact List.Pairwise.nil
  | cons a tl ih =>
    refine List.pairwise_cons.mpr ⟨?_, ih (n + 1)⟩
    intro y hy
    exact Nat.lt_of_succ_le (le_fst_of_mem_enumFrom hy)

/-- Inserting above all existing indices preserves strict
most-constrained-first sortedness. -/
theorem insertByLen_pairwise (x : Nat × Adv.Team) (l : List (Nat × Adv.Team))
    (hl : List.Pairwise Adv.mcfOrder l)
    (hidx : ∀ y ∈ l, y.1 < x.1) :
    List.Pairwise Adv.mcfOrder (Adv.insertByLen x l) := by
  induction l with
  | nil => simp [Adv.insertByLen]
  | cons y ys ih =>
    simp only [Adv.insertByLen]
    rcases List.pairwise_cons.mp hl with ⟨hy, hys⟩
    split
    · rename_i hle
      refine List.pairwise_cons.mpr
        ⟨?_, ih hys (fun z hz => hidx z (List.mem_cons_of_mem _ hz))⟩
      intro z hz
      rcases mem_insertByLen.mp hz with rfl | hz'
      · rcases Nat.lt_or_ge y.2.availableSlots.length
          z.2.availableSlots.length with h | h
        · exact Or.inl h
        · exact Or.inr ⟨Nat.le_antisymm hle h,
            hidx y (List.mem_cons_self _ _)⟩
      · exact hy z hz'
    · rename_i hgt
      refine List.pairwise_cons.mpr ⟨?_, hl⟩
      intro z hz
      rcases List.mem_cons.mp hz with rfl | hz'
      · exact Or.inl (Nat.lt_of_not_le hgt)
      · rcases hy z hz' with h | ⟨heq, _⟩
        · exact Or.inl (Nat.lt_trans (Nat.lt_of_not_le hgt) h)
        · exact Or.inl (heq ▸ Nat.lt_of_not_le hgt)

/-- The insertion-sort fold yields a strictly most-constrained-first
sorted list when fed items of strictly increasing index. -/
theorem sortFold_pairwise :
    ∀ (l acc : List (Nat × Adv.Team)),
      List.Pairwise Adv.mcfOrder acc →
      (∀ y ∈ acc, ∀ x ∈ l, y.1 < x.1) →
      List.Pairwise (fun a b : Nat × Adv.Team => a.1 < b.1) l →
      List.Pairwise Adv.mcfOrder
        (l.foldl (fun acc x => Adv.insertByLen x acc) acc) := by
  intro l
  induction l with
  | nil => intro acc hacc _ _; exact hacc
  | cons x xs ih =>
    intro acc hacc hsep hl
    rcases List.pairwise_cons.mp hl with ⟨hx, hxs⟩
    rw [List.foldl_cons]
    refine ih _ (insertByLen_pairwise x acc hacc
      (fun y hy => hsep y hy x (List.mem_cons_self _ _))) ?_ hxs
    intro y hy z hz
    rcases mem_insertByLen.mp hy with rfl | hy'
    · exact hx z hz
    · exact hsep y hy' z (List.mem_cons_of_mem _ hz)

/-- The engine's stable sort is strictly sorted by (availability size,
original position). -/
theorem sortTeamsByLen_pairwise (teams : List Adv.Team) :
    List.Pairwise Adv.mcfOrder
      (Adv.sortTeamsByLen (teams.map Adv.resetTeam).enum) := by
  refine sortFold_pairwise _ [] List.Pairwise.nil (by intro y hy; cases hy) ?_
  exact pairwise_fst_lt_enumFrom 0 _

/-! ### Claim C8 -/

/-- C8: the greedy engine first orders the (reset, index-tagged) teams
strictly by ascending availability-list size with ties broken by original
input position; its candidate scan walks the date-grouped slot priority
list (which is exactly the chronological `allSlots` order, not the team's
declared order), places the team in the first available pair preferring
track "A" when free, and leaves teams whose scan fails unassigned — the
run is extensionally the specification-side engine. -/
theorem C8_greedy_characterization (teams : List Adv.Team) :
    Adv.runContinuousOn teams = Adv.specRunContinuous teams ∧
      Adv.slotPriority = Adv.allSlots ∧
      (Adv.sortTeamsByLen (teams.map Adv.resetTeam).enum).Perm
        (teams.map Adv.resetTeam).enum ∧
      List.Pairwise Adv.mcfOrder
        (Adv.sortTeamsByLen (teams.map Adv.resetTeam).enum) := by
  refine ⟨?_, by decide, sortTeamsByLen_perm _, sortTeamsByLen_pairwise teams⟩
  simp only [Adv.runContinuousOn, Adv.specRunContinuous, greedyStep_eq_spec]

/-! ### Claim C9 -/

/-- C9: the Conflict Analyzer gives every unassigned team exactly one
reason: `NoAvailableSlots` whenever the availability list is empty;
otherwise, when every available (slot, track) pair present in the slot
universe is occupied, `AllSlotsOccupied` carrying a duplicate-free sample
of at most 3 of the occupying teams drawn from the assignment; and the
indeterminate message in every other case. -/
theorem C9_conflict_reasons (t : Adv.Team) (st : List Adv.TimeSlot) :
    (t.availableSlots.isEmpty = true →
      Adv.analyzeConflict t st = Adv.noSlotsMsg) ∧
    (t.availableSlots.isEmpty = false → Adv.allFull t st = true →
      Adv.analyzeConflict t st = Adv.allOccMsg (Adv.conflictSample t st) ∧
        (Adv.conflictSample t st).Nodup ∧
        (Adv.conflictSample t st).length ≤ 3 ∧
        (∀ n ∈ Adv.conflictSample t st, n ∈ Adv.conflictingTeams t st)) ∧
    (t.availableSlots.isEmpty = false → Adv.allFull t st = false →
      Adv.analyzeConflict t st = Adv.unknownMsg) := by
  refine ⟨?_, ?_, ?_⟩
  · intro h
    simp [Adv.analyzeConflict, h]
  · intro h1 h2
    refine ⟨by simp [Adv.analyzeConflict, h1, h2], ?_, ?_, ?_⟩
    · exact (List.take_sublist _ _).nodup (List.nodup_dedup _)
    · exact List.length_take_le _ _
    · intro n hn
      exact List.mem_dedup.mp (List.take_subset _ _ hn)
  · intro h1 h2
    simp [Adv.analyzeConflict, h1, h2]

/-- C9, witness: a team with empty availability gets `NoAvailableSlots`;
with the first Friday slot fully booked, a team that can only attend that
slot gets `AllSlotsOccupied` with its occupant sample. -/
theorem C9_conflict_reasons_witness :
    Adv.analyzeConflict advTEmpty Adv.initSlots = Adv.noSlotsMsg ∧
      Adv.analyzeConflict advT3 stC9 =
        Adv.allOccMsg (Adv.conflictSample advT3 stC9) :=
  ⟨(C9_conflict_reasons advTEmpty Adv.initSlots).1 (by decide),
    ((C9_conflict_reasons advT3 stC9).2.1 (by decide) (by decide)).1⟩

/-! ### Claim C4 -/

/-- Restoring saved assignment fields keeps identity fields. -/
theorem restore_idFields (saved : List (String × Option String ×
    Option String × Option String)) (t : Adv.Team) :
    Adv.idFields (Adv.restoreTeam saved t) = Adv.idFields t := by
  unfold Adv.restoreTeam
  split <;> rfl

/-- The team list left behind by the optimizer loop is either the
original one or the output of one executed iteration. -/
theorem optLoop_last (total : Nat) :
    ∀ (orders : List (List Adv.Team)) (best : Option Adv.Best)
      (cur : Adv.RunResult),
      (Adv.optLoop total orders best cur).2 = cur ∨
        ∃ o ∈ orders, (Adv.optLoop total orders best cur).2 =
          (Adv.runIteration o).2 := by
  intro orders
  induction orders with
  | nil => intro best cur; exact Or.inl rfl
  | cons o rest ih =>
    intro best cur
    simp only [Adv.optLoop]
    split
    · exact Or.inr ⟨o, List.mem_cons_self _ _, rfl⟩
    · rcases ih _ (Adv.runIteration o).2 with h | ⟨o', ho', h⟩
      · exact Or.inr ⟨o, List.mem_cons_self _ _, h⟩
      · exact Or.inr ⟨o', List.mem_cons_of_mem _ ho', h⟩

/-- C4, counterexample: a solve run does mutate the caller's Team record:
after one greedy run the team's `assigned_slot` and `assigned_group`
fields have been rewritten in place, so the team list no longer equals
the input. -/
theorem C4_counterexample :
    (Adv.runContinuousOn [advT1]).teams = [advT1Assigned] ∧
      advT1Assigned.assignedSlot = some ("9/12 19:00-19:45") ∧
      advT1.assignedSlot = none ∧
      (Adv.runContinuousOn [advT1]).teams ≠ [advT1] :=
  ⟨by decide, by decide, by decide, by decide⟩

/-- C4, amended: a solve run writes the assignment results
(`assigned_slot`, `assigned_group`, `conflict_reason`) into the shared
Team records, and the optimizer additionally reorders the team list in
place; however no engine ever changes a team's identity fields (name,
availability, email, phone): the greedy engine preserves them pointwise
in order, and the optimizer preserves them up to the shuffle
permutation. -/
theorem C4_identity_fields_never_mutated :
    ∀ (teams : List Adv.Team) (orders : List (List Adv.Team))
      (st0 : List Adv.TimeSlot),
      (∀ o ∈ orders, o.Perm teams) →
      ((Adv.runContinuousOn teams).teams.map Adv.idFields =
          teams.map Adv.idFields ∧
        ((Adv.optimizeSchedule teams orders st0).teams.map Adv.idFields).Perm
          (teams.map Adv.idFields)) := by
  intro teams orders st0 hperm
  refine ⟨runContinuous_idFields teams, ?_⟩
  have hlast := optLoop_last teams.length orders none
    { state := st0, teams := teams }
  have hcur : ∀ cur : Adv.RunResult,
      (cur = ({ state := st0, teams := teams } : Adv.RunResult) ∨
        ∃ o ∈ orders, cur = (Adv.runIteration o).2) →
      (cur.teams.map Adv.idFields).Perm (teams.map Adv.idFields) := by
    rintro cur (rfl | ⟨o, ho, rfl⟩)
    · exact List.Perm.refl _
    · have h1 : (Adv.runIteration o).2.teams.map Adv.idFields =
          o.map Adv.idFields := runContinuous_idFields o
      rw [h1]
      exact (hperm o ho).map _
  have hfinal := hcur _ (by
    rcases hlast with h | ⟨o, ho, h⟩
    · exact Or.inl h
    · exact Or.inr ⟨o, ho, h⟩)
  simp only [Adv.optimizeSchedule]
  cases hout : (Adv.optLoop teams.length orders none
      { state := st0, teams := teams }).1 with
  | none => exact hfinal
  | some b =>
    simp only
    split
    · exact hfinal
    · have hmm : ((Adv.optLoop teams.length orders none
          { state := st0, teams := teams }).2.teams.map
            (Adv.restoreTeam b.saved)).map Adv.idFields =
          (Adv.optLoop teams.length orders none
            { state := st0, teams := teams }).2.teams.map Adv.idFields := by
        rw [List.map_map]
        exact List.map_congr_left (fun t _ => restore_idFields b.saved t)
      rw [hmm]
      exact hfinal

/-- Witness for `C4_identity_fields_never_mutated` at a concrete
instance. -/
theorem C4_identity_fields_never_mutated_witness :
    (Adv.runContinuousOn [advT1, advT2]).teams.map Adv.idFields =
        ([advT1, advT2] : List Adv.Team).map Adv.idFields ∧
      ((Adv.optimizeSchedule [advT1, advT2] [[advT2, advT1]]
          Adv.initSlots).teams.map Adv.idFields).Perm
        (([advT1, advT2] : List Adv.Team).map Adv.idFields) :=
  C4_identity_fields_never_mutated [advT1, advT2] [[advT2, advT1]]
    Adv.initSlots (by decide)

/-! ### Lemmas on the single-track engines of `schedule_optimizer.py` -/

/-- Membership in the single-track stable insertion. -/
theorem mem_insByLen {x a : Opt.Team} {l : List Opt.Team} :
    a ∈ Opt.insByLen x l ↔ a = x ∨ a ∈ l := by
  induction l with
  | nil => simp [Opt.insByLen]
  | cons y ys ih =>
    simp only [Opt.insByLen]
    split
    · simp only [List.mem_cons, ih]
      constructor
      · rintro (h | h) <;> tauto
      · rintro (h | h | h) <;> tauto
    · constructor
      · rintro h
        rcases List.mem_cons.mp h with h | h
        · exact Or.inl h
        · exact Or.inr h
      · rintro (h | h)
        · exact h ▸ List.mem_cons_self _ _
        · exact List.mem_cons_of_mem _ h

/-- The single-track stable insertion permutes a cons. -/
theorem insByLen_perm (x : Opt.Team) (l : List Opt.Team) :
    (Opt.insByLen x l).Perm (x :: l) := by
  induction l with
  | nil => exact List.Perm.refl _
  | cons y ys ih =>
    simp only [Opt.insByLen]
    split
    · exact (ih.cons y).trans (List.Perm.swap x y ys)
    · exact List.Perm.refl _

/-- The MRV sort of `schedule_optimizer.py` permutes the team list. -/
theorem mrvSort_perm (teams : List Opt.Team) :
    (Opt.mrvSort teams).Perm teams := by
  have haux : ∀ (l acc : List Opt.Team),
      (l.foldl (fun acc t => Opt.insByLen t acc) acc).Perm (acc ++ l) := by
    intro l
    induction l with
    | nil => intro acc; simp
    | cons x xs ih =>
      intro acc
      have h1 := ih (Opt.insByLen x acc)
      have h2 : (Opt.insByLen x acc ++ xs).Perm ((x :: acc) ++ xs) :=
        (insByLen_perm x acc).append_right xs
      have h3 : (acc ++ x :: xs).Perm (x :: (acc ++ xs)) := List.perm_middle
      simpa using (h1.trans h2).trans h3.symm
  simpa [Opt.mrvSort] using haux teams []

/-- Each pair the single-track greedy fold adds names a processed team
and a slot of its declared availability. -/
theorem optGreedy_fold_mem :
    ∀ (l : List Opt.Team) (sched : List (String × String)),
      ∀ p ∈ l.foldl Opt.greedyStep sched, p ∈ sched ∨
        ∃ t, t ∈ l ∧ p.2 = t.name ∧ p.1 ∈ t.availableSlots := by
  intro l
  induction l with
  | nil =>
    intro sched p hp
    exact Or.inl hp
  | cons t rest ih =>
    intro sched p hp
    rw [List.foldl_cons] at hp
    have hcases := ih (Opt.greedyStep sched t) p hp
    rcases hcases with h | ⟨t', ht', h1, h2⟩
    · unfold Opt.greedyStep at h
      split at h
      · rename_i s hfind
        rcases List.mem_append.mp h with h | h
        · exact Or.inl h
        · have hps : p = (s, t.name) := by simpa using h
          refine Or.inr ⟨t, List.mem_cons_self _ _, by rw [hps],
            ?_⟩
          rw [hps]
          exact List.mem_of_find?_eq_some hfind
      · exact Or.inl h
    · exact Or.inr ⟨t', List.mem_cons_of_mem _ ht', h1, h2⟩

/-- Key/value distinctness invariant of the single-track greedy fold. -/
theorem optGreedy_fold_nodup :
    ∀ (l : List Opt.Team) (sched : List (String × String)),
      (sched.map Prod.fst).Nodup →
      (sched.map Prod.snd).Nodup →
      (∀ p ∈ sched, p.2 ∉ l.map (fun t => t.name)) →
      (l.map (fun t => t.name)).Nodup →
      ((l.foldl Opt.greedyStep sched).map Prod.fst).Nodup ∧
        ((l.foldl Opt.greedyStep sched).map Prod.snd).Nodup := by
  intro l
  induction l with
  | nil =>
    intro sched h1 h2 _ _
    exact ⟨h1, h2⟩
  | cons t rest ih =>
    intro sched h1 h2 hfresh hnames
    rw [List.foldl_cons]
    have hnames_tl : (rest.map (fun t => t.name)).Nodup := by
      simpa using hnames.of_cons
    have htname : t.name ∉ rest.map (fun t => t.name) := by
      simp only [List.map_cons, List.nodup_cons] at hnames
      exact hnames.1
    unfold Opt.greedyStep
    split
    · rename_i s hfind
      have hsfree : s ∉ sched.map Prod.fst := by
        intro hs
        rcases List.mem_map.mp hs with ⟨p, hp, hps⟩
        have := List.find?_some hfind
        rw [Option.isNone_iff_eq_none] at this
        have hex : (sched.find? (fun q => q.1 = s)).isSome = true :=
          List.find?_isSome.mpr ⟨p, hp, by simp [hps]⟩
        rw [this] at hex
        cases hex
      have hvfree : t.name ∉ sched.map Prod.snd := by
        intro hv
        rcases List.mem_map.mp hv with ⟨p, hp, hps⟩
        exact hfresh p hp (by simp [hps])
      refine ih _ ?_ ?_ ?_ hnames_tl
      · simp only [List.map_append, List.map_cons, List.map_nil]
        refine List.Nodup.append h1 (List.nodup_singleton _) ?_
        intro x hx hy
        rw [List.mem_singleton] at hy
        subst hy
        exact hsfree hx
      · simp only [List.map_append, List.map_cons, List.map_nil]
        refine List.Nodup.append h2 (List.nodup_singleton _) ?_
        intro x hx hy
        rw [List.mem_singleton] at hy
        subst hy
        exact hvfree hx
      · intro p hp
        rcases List.mem_append.mp hp with h | h
        · intro hc
          exact hfresh p h (by simpa using Or.inr hc)
        · have hps : p = (s, t.name) := by simpa using h
          rw [hps]
          exact htname
    · refine ih _ h1 h2 ?_ hnames_tl
      intro p hp hc
      exact hfresh p hp (by simpa using Or.inr hc)

/-- Feasibility only depends on the occupied set, not its listing. -/
theorem canPlace_congr :
    ∀ {ts : List Opt.Team} {occ occ' : List String},
      (∀ x, x ∈ occ ↔ x ∈ occ') → Opt.CanPlace ts occ →
      Opt.CanPlace ts occ' := by
  intro ts occ occ' hiff h
  induction h generalizing occ' with
  | nil => exact Opt.CanPlace.nil
  | cons hmem hnot hrest ih =>
    refine Opt.CanPlace.cons hmem (fun hc => hnot ((hiff _).mpr hc)) ?_
    refine ih ?_
    intro x
    simp only [List.mem_cons]
    rw [hiff x]

/-- Fewer occupied slots only make placement easier. -/
theorem canPlace_of_superset :
    ∀ {ts : List Opt.Team} {occ occ' : List String},
      (∀ x, x ∈ occ → x ∈ occ') → Opt.CanPlace ts occ' →
      Opt.CanPlace ts occ := by
  intro ts occ occ' hsub h
  induction h generalizing occ with
  | nil => exact Opt.CanPlace.nil
  | cons hmem hnot hrest ih =>
    refine Opt.CanPlace.cons hmem (fun hc => hnot (hsub _ hc)) ?_
    refine ih ?_
    intro x
    simp only [List.mem_cons]
    rintro (h | h)
    · exact Or.inl h
    · exact Or.inr (hsub _ h)

/-- Feasibility is invariant under permuting the team list. -/
theorem canPlace_perm :
    ∀ {ts ts' : List Opt.Team},
      ts.Perm ts' → ∀ {occ : List String},
      Opt.CanPlace ts occ → Opt.CanPlace ts' occ := by
  intro ts ts' hperm
  induction hperm with
  | nil => intro occ h; exact h
  | cons x _ ih =>
    intro occ h
    cases h with
    | cons hmem hnot hrest => exact Opt.CanPlace.cons hmem hnot (ih hrest)
  | swap x y l =>
    intro occ h
    cases h with
    | cons hmemY hnotY hrest =>
      rename_i sy
      cases hrest with
      | cons hmemX hnotX hrest2 =>
        rename_i sx
        have hxy : ¬ sx = sy := by
          intro hc
          exact hnotX (by simp [hc])
        refine Opt.CanPlace.cons hmemX
          (fun hc => hnotX (by simp [hc])) ?_
        refine Opt.CanPlace.cons hmemY ?_ ?_
        · intro hc
          rcases List.mem_cons.mp hc with hc | hc
          · exact hxy hc.symm
          · exact hnotY hc
        · refine canPlace_congr ?_ hrest2
          intro z
          simp only [List.mem_cons]
          tauto
  | trans _ _ ih1 ih2 =>
    intro occ h
    exact ih2 (ih1 h)

/-- `findSome?` succeeds whenever it succeeds on some member. -/
theorem findSome?_isSome_of_mem {α β : Type} {l : List α} {a : α}
    {f : α → Option β} (ha : a ∈ l) (hf : (f a).isSome = true) :
    (l.findSome? f).isSome = true := by
  induction l with
  | nil => cases ha
  | cons x xs ih =>
    rw [List.findSome?_cons]
    cases hfa : f x with
    | some b => rfl
    | none =>
      rcases List.mem_cons.mp ha with rfl | h
      · rw [hfa] at hf
        cases hf
      · exact ih h

/-- What a successful backtracking search guarantees: the incoming
schedule persists, every entry names a team and one of its declared
slots, keys and values stay duplicate-free, and every team is either
already marked assigned or appears in the result. -/
theorem btAux_sound :
    ∀ (ts : List Opt.Team) (sched : List (String × String))
      (asg : List String) (r : List (String × String)),
      Opt.btAux ts sched asg = some r →
      ((∀ p ∈ sched, p ∈ r) ∧
        (∀ p ∈ r, p ∈ sched ∨
          ∃ t, t ∈ ts ∧ p.2 = t.name ∧ p.1 ∈ t.availableSlots) ∧
        ((sched.map Prod.fst).Nodup → (r.map Prod.fst).Nodup) ∧
        ((sched.map Prod.snd).Nodup → (∀ p ∈ sched, p.2 ∈ asg) →
          (r.map Prod.snd).Nodup) ∧
        (∀ t ∈ ts, t.name ∈ asg ∨ ∃ s, (s, t.name) ∈ r)) := by
  intro ts
  induction ts with
  | nil =>
    intro sched asg r h
    have hr : sched = r := by
      simpa [Opt.btAux] using h
    subst hr
    exact ⟨fun p hp => hp, fun p hp => Or.inl hp, fun h => h,
      fun h _ => h, fun t ht => absurd ht (List.not_mem_nil t)⟩
  | cons t rest ih =>
    intro sched asg r h
    rw [Opt.btAux] at h
    split at h
    · rename_i hskip
      obtain ⟨c1, c2, c3, c4, c5⟩ := ih sched asg r h
      refine ⟨c1, ?_, c3, c4, ?_⟩
      · intro p hp
        rcases c2 p hp with h' | ⟨t', ht', h1, h2⟩
        · exact Or.inl h'
        · exact Or.inr ⟨t', List.mem_cons_of_mem _ ht', h1, h2⟩
      · intro t' ht'
        rcases List.mem_cons.mp ht' with rfl | ht'
        · exact Or.inl hskip
        · exact c5 t' ht'
    · rename_i hskip
      obtain ⟨s, hs, hfs⟩ := List.exists_of_findSome?_eq_some h
      split at hfs
      · cases hfs
      · rename_i hocc
        obtain ⟨c1, c2, c3, c4, c5⟩ := ih _ _ r hfs
        have hmemnew : (s, t.name) ∈ r :=
          c1 _ (by simp)
        have hsfree : s ∉ sched.map Prod.fst := by
          intro hc
          rcases List.mem_map.mp hc with ⟨p, hp, hps⟩
          exact hocc (List.find?_isSome.mpr ⟨p, hp, by simp [hps]⟩)
        refine ⟨?_, ?_, ?_, ?_, ?_⟩
        · intro p hp
          exact c1 p (List.mem_append_left _ hp)
        · intro p hp
          rcases c2 p hp with h' | ⟨t', ht', h1, h2⟩
          · rcases List.mem_append.mp h' with h' | h'
            · exact Or.inl h'
            · have hps : p = (s, t.name) := by simpa using h'
              exact Or.inr ⟨t, List.mem_cons_self _ _, by rw [hps],
                by rw [hps]; exact hs⟩
          · exact Or.inr ⟨t', List.mem_cons_of_mem _ ht', h1, h2⟩
        · intro hnd
          refine c3 ?_
          simp only [List.map_append, List.map_cons, List.map_nil]
          refine List.Nodup.append hnd (List.nodup_singleton _) ?_
          intro x hx hy
          rw [List.mem_singleton] at hy
          subst hy
          exact hsfree hx
        · intro hnd hval
          have hvfree : t.name ∉ sched.map Prod.snd := by
            intro hc
            rcases List.mem_map.mp hc with ⟨p, hp, hps⟩
            exact hskip (hps ▸ hval p hp)
          refine c4 ?_ ?_
          · simp only [List.map_append, List.map_cons, List.map_nil]
            refine List.Nodup.append hnd (List.nodup_singleton _) ?_
            intro x hx hy
            rw [List.mem_singleton] at hy
            subst hy
            exact hvfree hx
          · intro p hp
            rcases List.mem_append.mp hp with h' | h'
            · exact List.mem_cons_of_mem _ (hval p h')
            · have hps : p = (s, t.name) := by simpa using h'
              rw [hps]
              exact List.mem_cons_self _ _
        · intro t' ht'
          rcases List.mem_cons.mp ht' with rfl | ht'
          · exact Or.inr ⟨s, hmemnew⟩
          · rcases c5 t' ht' with h' | h'
            · rcases List.mem_cons.mp h' with h' | h'
              · exact Or.inr ⟨s, h' ▸ hmemnew⟩
              · exact Or.inl h'
            · exact Or.inr h'

/-- Completeness of the backtracking search: whenever the remaining
teams admit a placement into distinct free declared slots, the search
succeeds. -/
theorem btAux_complete :
    ∀ (ts : List Opt.Team) (sched : List (String × String))
      (asg : List String),
      Opt.CanPlace ts (sched.map Prod.fst) →
      (Opt.btAux ts sched asg).isSome = true := by
  intro ts
  induction ts with
  | nil =>
    intro sched asg _
    simp [Opt.btAux]
  | cons t rest ih =>
    intro sched asg h
    cases h with
    | cons hmem hnot hrest =>
      rename_i s
      rw [Opt.btAux]
      split
      · exact ih sched asg
          (canPlace_of_superset (fun x hx => List.mem_cons_of_mem _ hx) hrest)
      · have hocc : (sched.find? (fun p => p.1 = s)).isSome = false := by
          rw [Bool.eq_false_iff]
          intro hc
          rcases List.find?_isSome.mp hc with ⟨p, hp, hps⟩
          exact hnot (List.mem_map.mpr ⟨p, hp, by simpa using hps⟩)
        refine findSome?_isSome_of_mem hmem ?_
        rw [if_neg (by simp [hocc])]
        refine ih _ _ ?_
        refine canPlace_congr ?_ hrest
        intro x
        simp only [List.map_append, List.map_cons, List.map_nil,
          List.mem_cons, List.mem_append, List.mem_singleton]
        tauto

/-! ### Claim C5 -/

/-- C5: when the team count fits the capacity and some assignment places
every team into a distinct slot of its own availability, the backtracking
search succeeds before the greedy fallback: `_backtrack_scheduling`
returns the search's schedule, and every team's name is placed in it. -/
theorem C5_backtracking_completeness (teams : List Opt.Team)
    (hcap : teams.length ≤ Opt.allSlots.length)
    (hfeas : Opt.CanPlace teams []) :
    ∃ r, Opt.backtrackRun teams = some r ∧
      Opt.backtrackScheduling teams = r ∧
      ∀ t ∈ teams, ∃ s, (s, t.name) ∈ r := by
  have hsorted : Opt.CanPlace (Opt.mrvSort teams) [] :=
    canPlace_perm (mrvSort_perm teams).symm hfeas
  have hsome : (Opt.btAux (Opt.mrvSort teams) [] []).isSome = true :=
    btAux_complete _ [] [] hsorted
  rcases Option.isSome_iff_exists.mp hsome with ⟨r, hr⟩
  refine ⟨r, hr, ?_, ?_⟩
  · unfold Opt.backtrackScheduling Opt.backtrackRun
    rw [hr]
  · intro t ht
    obtain ⟨_, _, _, _, c5⟩ := btAux_sound _ [] [] r hr
    rcases c5 t ((mrvSort_perm teams).symm.mem_iff.mp ht) with h | h
    · cases h
    · exact h

/-- C5, witness: two teams, one of which can only attend `s1`, are both
placed by the backtracking search. -/
theorem C5_backtracking_completeness_witness :
    ∃ r, Opt.backtrackRun [optW5a, optW5b] = some r ∧
      Opt.backtrackScheduling [optW5a, optW5b] = r ∧
      ∀ t ∈ [optW5a, optW5b], ∃ s, (s, t.name) ∈ r := by
  refine C5_backtracking_completeness [optW5a, optW5b] (by decide) ?_
  refine Opt.CanPlace.cons
    (show ("s2") ∈ optW5a.availableSlots by decide) (by decide) ?_
  refine Opt.CanPlace.cons
    (show ("s1") ∈ optW5b.availableSlots by decide) (by decide) ?_
  exact Opt.CanPlace.nil

/-! ### Lemmas on the exact-solver model of `core/scheduler_engine.py` -/

/-- Sums of pointwise sums split. -/
theorem sum_map_add {α : Type} (l : List α) (f g : α → Nat) :
    (l.map (fun a => f a + g a)).sum = (l.map f).sum + (l.map g).sum := by
  induction l with
  | nil => rfl
  | cons a tl ih =>
    simp only [List.map_cons, List.sum_cons, ih]
    omega

/-- A pointwise-constant map sums to the length times the constant. -/
theorem sum_map_eq_const {α : Type} (l : List α) (f : α → Nat) (c : Nat)
    (h : ∀ a ∈ l, f a = c) : (l.map f).sum = c * l.length := by
  induction l with
  | nil => rfl
  | cons a tl ih =>
    simp only [List.map_cons, List.sum_cons, List.length_cons]
    rw [h a (List.mem_cons_self _ _), ih (fun b hb => h b (List.mem_cons_of_mem _ hb))]
    ring

/-- A pointwise-bounded map sums to at most the length times the bound. -/
theorem sum_map_le_const {α : Type} (l : List α) (f : α → Nat) (c : Nat)
    (h : ∀ a ∈ l, f a ≤ c) : (l.map f).sum ≤ c * l.length := by
  induction l with
  | nil => exact Nat.zero_le _
  | cons a tl ih =>
    simp only [List.map_cons, List.sum_cons, List.length_cons]
    have h1 := h a (List.mem_cons_self _ _)
    have h2 := ih (fun b hb => h b (List.mem_cons_of_mem _ hb))
    have : c * (tl.length + 1) = c + c * tl.length := by ring
    omega

/-- Double sums over two index lists commute. -/
theorem sum_sum_comm {α β : Type} (ts : List α) (ps : List β)
    (f : α → β → Nat) :
    (ts.map (fun t => (ps.map (f t)).sum)).sum =
      (ps.map (fun p => (ts.map (fun t => f t p)).sum)).sum := by
  induction ts with
  | nil =>
    simp only [List.map_nil, List.sum_nil]
    rw [sum_map_eq_const ps _ 0 (fun _ _ => rfl)]
    simp
  | cons t tl ih =>
    simp only [List.map_cons, List.sum_cons, ih]
    rw [sum_map_add]

/-- The boolean-to-count value is at most one. -/
theorem b2n_le_one (b : Bool) : Core.b2n b ≤ 1 := by
  cases b <;> simp [Core.b2n]

/-- The `FIRST_PREFERENCE` objective is bounded by 175 per team. -/
theorem objFP_le (teams : List Core.Team) (p : Core.PrefAsn) :
    Core.objFP teams p ≤ 175 * teams.length := by
  refine sum_map_le_const teams _ 175 ?_
  intro t _
  have h1 := b2n_le_one (p t.teamId 1)
  have h2 := b2n_le_one (p t.teamId 2)
  have h3 := b2n_le_one (p t.teamId 3)
  omega

/-- Setting every preference variable attains the objective bound. -/
theorem objFP_pAllTrue (teams : List Core.Team) :
    Core.objFP teams Core.pAllTrue = 175 * teams.length := by
  refine sum_map_eq_const teams _ 175 ?_
  intro t _
  rfl

/-- Any feasible assignment with all preference variables set is optimal
for the `FIRST_PREFERENCE` objective. -/
theorem optimalFP_pAllTrue (teams : List Core.Team) (slots : List Core.Slot)
    (cons : Core.Constraint) (x : Core.ScheduleAsn) (g2 : Core.GroupAsn)
    (hf : Core.feasible teams slots cons x Core.pAllTrue g2 = true) :
    Core.IsOptimalFP teams slots cons x Core.pAllTrue g2 := by
  refine ⟨hf, ?_⟩
  intro x' p' g2' _
  rw [objFP_pAllTrue]
  exact objFP_le teams p'

/-- Pigeonhole infeasibility: with a non-empty slot list, more teams
than (slot, group-index) variable keys admit no satisfying assignment. -/
theorem not_sat_overcapacity (teams : List Core.Team)
    (slots : List Core.Slot) (cons : Core.Constraint)
    (hne : slots.isEmpty = false)
    (hlt : 2 * slots.length < teams.length) :
    ¬ Core.Sat teams slots cons := by
  rintro ⟨x, p, g2, hf⟩
  have hteams_ne : teams.isEmpty = false := by
    cases hteams : teams with
    | nil =>
      subst hteams
      simp at hlt
    | cons a tl => rfl
  have hc1 : Core.basicC1 teams slots x = true := by
    simp only [Core.feasible, Bool.and_eq_true] at hf
    exact hf.1.1.1.1
  have hc2 : Core.basicC2 teams slots x = true := by
    simp only [Core.feasible, Bool.and_eq_true] at hf
    exact hf.1.1.1.2
  have hsum1 : ∀ t ∈ teams, Core.teamPairSum slots x t.teamId = 1 := by
    intro t ht
    have := (List.all_eq_true.mp hc1) t ht
    rcases Bool.or_eq_true_iff.mp this with h | h
    · rw [hne] at h
      cases h
    · simp only [beq_iff_eq] at h
      exact h
  have hsum2 : ∀ s ∈ slots,
      Core.slotGroupSum teams x s.slotId Core.Group.A +
        Core.slotGroupSum teams x s.slotId Core.Group.B ≤ 2 := by
    intro s hs
    have hboth := (List.all_eq_true.mp hc2) s hs
    simp only [Bool.and_eq_true] at hboth
    obtain ⟨hA, hB⟩ := hboth
    have hA2 : Core.slotGroupSum teams x s.slotId Core.Group.A ≤ 1 := by
      rcases Bool.or_eq_true_iff.mp hA with h | h
      · rw [hteams_ne] at h
        cases h
      · exact of_decide_eq_true h
    have hB2 : Core.slotGroupSum teams x s.slotId Core.Group.B ≤ 1 := by
      rcases Bool.or_eq_true_iff.mp hB with h | h
      · rw [hteams_ne] at h
        cases h
      · exact of_decide_eq_true h
    omega
  have htotal : (teams.map (fun t => Core.teamPairSum slots x t.teamId)).sum =
      teams.length := by
    rw [sum_map_eq_const _ _ 1 hsum1]
    omega
  have hswap : (teams.map (fun t => Core.teamPairSum slots x t.teamId)).sum =
      (slots.map (fun s =>
        (teams.map (fun t => Core.b2n (x t.teamId s.slotId Core.Group.A) +
          Core.b2n (x t.teamId s.slotId Core.Group.B))).sum)).sum := by
    exact sum_sum_comm teams slots (fun t s =>
      Core.b2n (x t.teamId s.slotId Core.Group.A) +
        Core.b2n (x t.teamId s.slotId Core.Group.B))
  have hbound : (slots.map (fun s =>
      (teams.map (fun t => Core.b2n (x t.teamId s.slotId Core.Group.A) +
        Core.b2n (x t.teamId s.slotId Core.Group.B))).sum)).sum ≤
      2 * slots.length := by
    refine sum_map_le_const slots _ 2 ?_
    intro s hs
    rw [sum_map_add]
    exact hsum2 s hs
  have hfinal : teams.length ≤ 2 * slots.length := by
    rw [← htotal, hswap]
    exact hbound
  omega

/-- The default 84-slot universe is non-empty. -/
theorem slots3_ne : slots3.isEmpty = false := by decide

/-- The default universe has 84 slots. -/
theorem slots3_length : slots3.length = 84 := by decide

/-- There are 169 teams in the overcapacity instance. -/
theorem teams169_length : teams169.length = 169 := by
  simp [teams169]

/-- The 169-team instance is infeasible for the hard constraints. -/
theorem not_sat_teams169 : ¬ Core.Sat teams169 slots3 consEmpty := by
  refine not_sat_overcapacity _ _ _ slots3_ne ?_
  rw [slots3_length, teams169_length]
  omega

/-- A right member of a `Forall₂` is related to some left member. -/
theorem forall₂_mem_right {α β : Type} {R : α → β → Prop} :
    ∀ {l₁ : List α} {l₂ : List β}, List.Forall₂ R l₁ l₂ →
      ∀ b ∈ l₂, ∃ a ∈ l₁, R a b := by
  intro l₁ l₂ h
  induction h with
  | nil => intro b hb; cases hb
  | cons hab _ ih =>
    intro b hb
    rcases List.mem_cons.mp hb with rfl | hb
    · exact ⟨_, List.mem_cons_self _ _, hab⟩
    · rcases ih b hb with ⟨a, ha, hr⟩
      exact ⟨a, List.mem_cons_of_mem _ ha, hr⟩

/-! ### Claim C6 -/

/-- C6, counterexample: on the infeasible 169-team instance every
strategy's solve reports infeasibility, `_generate_single_option` yields
`None` for each, and `generate_five_options` returns the empty option
list — no strategy is represented by a best-effort partial result. -/
theorem C6_counterexample : Core.GenFiveRel teams169 slots3 consEmpty [] := by
  refine ⟨[none, none, none, none, none], ?_, rfl⟩
  have hsingle : ∀ n st : String,
      Core.GenSingleRel teams169 slots3 consEmpty n st none :=
    fun n st => ⟨none, Or.inl ⟨rfl, not_sat_teams169⟩, rfl⟩
  refine List.Forall₂.cons (hsingle _ _) ?_
  refine List.Forall₂.cons (hsingle _ _) ?_
  refine List.Forall₂.cons (hsingle _ _) ?_
  refine List.Forall₂.cons (hsingle _ _) ?_
  exact List.Forall₂.cons (hsingle _ _) List.Forall₂.nil

/-- C6, amended: when the hard constraints of a solve admit no solution,
`_generate_single_option` returns `None` instead of a best-effort partial
result, and `generate_five_options` drops every such strategy from its
output — on a fully infeasible instance it returns the empty list rather
than accounting for all five strategies. -/
theorem C6_infeasible_strategy_dropped (teams : List Core.Team)
    (slots : List Core.Slot) (cons : Core.Constraint)
    (r : Option Core.SchedOption) (out : List Core.SchedOption)
    (name styp : String)
    (hunsat : ¬ Core.Sat teams slots cons) :
    (Core.GenSingleRel teams slots cons name styp r → r = none) ∧
      (Core.GenFiveRel teams slots cons out → out = []) := by
  constructor
  · rintro ⟨rr, hcp, hout⟩
    rcases hcp with ⟨hrr, _⟩ | ⟨x, p, g2, hrr, hfeas⟩
    · rw [hout, hrr]
      rfl
    · exact absurd ⟨x, p, g2, hfeas⟩ hunsat
  · rintro ⟨picks, hall, hout⟩
    have hnone : ∀ o ∈ picks, o = none := by
      intro o ho
      rcases forall₂_mem_right hall o ho with ⟨strat, _, hrel⟩
      rcases hrel with ⟨rr, hcp, hdef⟩
      rcases hcp with ⟨hrr, _⟩ | ⟨x, p, g2, hrr, hfeas⟩
      · rw [hdef, hrr]
        rfl
      · exact absurd ⟨x, p, g2, hfeas⟩ hunsat
    have haux : ∀ l : List (Option Core.SchedOption),
        (∀ o ∈ l, o = none) →
        (l.filterMap (fun o => match o with
          | some op => if op.schedules.isEmpty then none else some op
          | none => none)) = ([] : List Core.SchedOption) := by
      intro l
      induction l with
      | nil => intro _; rfl
      | cons o rest ih =>
        intro hl
        have ho : o = none := hl o (List.mem_cons_self _ _)
        subst ho
        simp only [List.filterMap_cons]
        exact ih (fun o ho => hl o (List.mem_cons_of_mem _ ho))
    rw [hout]
    exact haux picks hnone

/-- C6, witness: instantiation of the amended claim on the concrete
infeasible 169-team instance. -/
theorem C6_infeasible_strategy_dropped_witness :
    (Core.GenSingleRel teams169 slots3 consEmpty ("옵션 1: 1순위 희망시간 최대 반영")
        ("first_preference") none → (none : Option Core.SchedOption) = none) ∧
      (Core.GenFiveRel teams169 slots3 consEmpty [] →
        ([] : List Core.SchedOption) = []) :=
  C6_infeasible_strategy_dropped teams169 slots3 consEmpty none []
    ("옵션 1: 1순위 희망시간 최대 반영") ("first_preference") not_sat_teams169

/-- A zero boolean count means the boolean is false. -/
theorem b2n_eq_zero {b : Bool} (h : Core.b2n b = 0) : b = false := by
  cases b
  · rfl
  · simp [Core.b2n] at h

/-- Group-consistency forces every group-matched variable of a team
whose group variable is false to zero. -/
theorem matched_var_zero (teams : List Core.Team) (slots : List Core.Slot)
    (x : Core.ScheduleAsn) (g2 : Core.GroupAsn) (t : Core.Team)
    (ge : Core.Group) (s : Core.Slot)
    (hc3 : Core.basicC3 teams slots x g2 = true)
    (ht : t ∈ teams) (hs : s ∈ slots) (hsg : s.group = ge)
    (hg2 : g2 t.teamId ge = false) :
    x t.teamId s.slotId ge = false := by
  have h3 := (List.all_eq_true.mp hc3) t ht
  simp only [Bool.and_eq_true] at h3
  have hmemf : s ∈ slots.filter (fun s2 => s2.group = ge) :=
    List.mem_filter.mpr ⟨hs, by simp [hsg]⟩
  have hcore : ∀ (hcase : ((slots.filter
        (fun s2 => s2.group = ge)).isEmpty ||
        (Core.groupMatchedSum slots x t.teamId ge ==
          Core.b2n (g2 t.teamId ge))) = true),
      x t.teamId s.slotId ge = false := by
    intro hcase
    rcases Bool.or_eq_true_iff.mp hcase with h | h
    · exfalso
      rw [List.isEmpty_iff] at h
      rw [h] at hmemf
      cases hmemf
    · simp only [beq_iff_eq, hg2] at h
      have hz : Core.groupMatchedSum slots x t.teamId ge = 0 := by
        simpa [Core.b2n] using h
      unfold Core.groupMatchedSum at hz
      rw [List.sum_eq_zero_iff] at hz
      have := hz (Core.b2n (x t.teamId s.slotId ge))
        (List.mem_map_of_mem _ hmemf)
      exact b2n_eq_zero this
  cases ge with
  | A => exact hcore h3.1
  | B => exact hcore h3.2

/-! ### Claim C7 -/

/-- C7, counterexample: with interviewer `면접관1` staffing track A and
avoiding team `t1`, a feasible, objective-optimal solution sets the
group-mismatched variable (A-slot, B-index), and extraction places `t1`
into a physical track-A slot — the avoidance is violated in the returned
schedule. -/
theorem C7_counterexample :
    Core.PossibleFPResult [coreT1] slots3 consC7 exC7 ∧
      exC7.map (fun sc => (sc.team.teamId, sc.slot.group)) =
        [("t1", Core.Group.A)] ∧
      Core.avoidRespectB consC7 exC7 = false := by
  refine ⟨⟨xC7, Core.pAllTrue, g2None,
    optimalFP_pAllTrue _ _ _ _ _ (by decide), rfl⟩, by decide, by decide⟩

/-- C7, amended: the avoidance constraint holds at the level of the
decision variables: in every assignment satisfying the hard constraints,
a team avoided by the interviewer of a (truthy) group is never set on a
group-matched variable of that group — but extraction may still place it
into a physical slot of the avoided track through a group-mismatched
variable. -/
theorem C7_avoidance_variable_level (teams : List Core.Team)
    (slots : List Core.Slot) (cons : Core.Constraint)
    (x : Core.ScheduleAsn) (p : Core.PrefAsn) (g2 : Core.GroupAsn)
    (iv : String) (avoided : List String) (gs tid : String)
    (t : Core.Team) (s : Core.Slot)
    (hf : Core.feasible teams slots cons x p g2 = true)
    (hia : (iv, avoided) ∈ cons.interviewerAvoidance)
    (hgs : Core.lookupAssoc cons.interviewerGroups iv = some gs)
    (hgsne : gs.isEmpty = false)
    (htid : tid ∈ avoided)
    (hfind : teams.find? (fun tt => tt.teamId = tid) = some t)
    (hs : s ∈ slots)
    (hsg : s.group = (if gs = "A" then Core.Group.A else Core.Group.B)) :
    x t.teamId s.slotId (if gs = "A" then Core.Group.A else Core.Group.B) =
      false := by
  have hic : Core.interviewerC teams cons g2 = true := by
    simp only [Core.feasible, Bool.and_eq_true] at hf
    exact hf.2
  have hc3 : Core.basicC3 teams slots x g2 = true := by
    simp only [Core.feasible, Bool.and_eq_true] at hf
    exact hf.1.1.2
  have hg2 : g2 t.teamId
      (if gs = "A" then Core.Group.A else Core.Group.B) = false := by
    have h1 := (List.all_eq_true.mp hic) (iv, avoided) hia
    simp only [hgs, hgsne, Bool.false_eq_true, if_false] at h1
    have h2 := (List.all_eq_true.mp h1) tid htid
    simp only [hfind] at h2
    simpa using h2
  exact matched_var_zero teams slots x g2 t _ s hc3
    (List.mem_of_find?_eq_some hfind) hs hsg hg2

/-- C7, witness: the amended claim applied to a concrete feasible
instance where `t1` sits legitimately on track B while interviewer
`면접관1` (track A) avoids it. -/
theorem C7_avoidance_variable_level_witness :
    Core.feasible [coreT1] slots3 consC7 xW7 Core.pAllTrue g2W7 = true ∧
      xW7 coreT1.teamId sW7.slotId
        (if ("A" : String) = "A" then Core.Group.A else Core.Group.B) =
        false :=
  ⟨by decide,
    C7_avoidance_variable_level [coreT1] slots3 consC7 xW7 Core.pAllTrue g2W7
      ("면접관1") (["t1"]) ("A") ("t1") coreT1 sW7 (by decide) (by decide)
      (by decide) (by decide) (by decide) (by decide) (by decide) (by decide)⟩

/-! ### Claim C1 and C2 counterexamples -/

/-- C1, counterexample: a feasible, objective-optimal solution of the
exact solver's model sets `t1` on the (first A-slot, A-index) variable
and `t2` on the group-mismatched (first A-slot, B-index) variable;
extraction then returns both teams in the same physical (slot, track)
pair — the assignment does not map each (slot, track) pair to at most one
team. -/
theorem C1_counterexample :
    Core.PossibleFPResult [coreT1, coreT2] slots3 consEmpty exC1 ∧
      Core.assignmentPairs exC1 =
        [(sidA0, Core.Group.A), (sidA0, Core.Group.A)] ∧
      Core.noDoubleBookB exC1 = false := by
  refine ⟨⟨xC1, Core.pAllTrue, g2C1,
    optimalFP_pAllTrue _ _ _ _ _ (by decide), rfl⟩, by decide, by decide⟩

/-- C2, counterexample: the exact solver's model has no availability
variables at all — a team with an empty declared availability
(`time_preferences = []`) is still assigned a slot by every feasible
solution, so the occupied slot identifier is not a member of its declared
availability. -/
theorem C2_counterexample :
    Core.PossibleFPResult [coreT1] slots3 consEmpty exC2 ∧
      exC2.map (fun sc => sc.slot.slotId) = [sidA0] ∧
      coreT1.timePreferences = [] ∧
      Core.availContainB exC2 = false := by
  refine ⟨⟨xC2, Core.pAllTrue, g2C1,
    optimalFP_pAllTrue _ _ _ _ _ (by decide), rfl⟩, by decide, rfl, by decide⟩

/-! ### Occupancy soundness of the greedy engine -/

/-- Placement writes only the placed name at the placed key. -/
theorem placeAt_occupant (st : List Adv.TimeSlot) (s g name : String)
    (P : String → String → Prop)
    (hst : ∀ ts ∈ st, ∀ n, (ts.groupATeam = some n ∨ ts.groupBTeam = some n) →
      P n ts.fullSlot)
    (hnew : P name s) :
    ∀ ts ∈ Adv.placeAt st s g name, ∀ n,
      (ts.groupATeam = some n ∨ ts.groupBTeam = some n) → P n ts.fullSlot := by
  intro ts hts n hocc
  rcases List.mem_map.mp hts with ⟨ts0, hts0, hdef⟩
  by_cases hk : ts0.fullSlot = s
  · by_cases hg : g = "A"
    · simp only [if_pos hk, if_pos hg] at hdef
      subst hdef
      rcases hocc with h | h
      · have : n = name := by simpa using h.symm
        subst this
        rw [show Adv.TimeSlot.fullSlot _ = ts0.fullSlot from rfl, hk]
        exact hnew
      · exact hst ts0 hts0 n (Or.inr (by simpa using h))
    · simp only [if_pos hk, if_neg hg] at hdef
      subst hdef
      rcases hocc with h | h
      · exact hst ts0 hts0 n (Or.inl (by simpa using h))
      · have : n = name := by simpa using h.symm
        subst this
        rw [show Adv.TimeSlot.fullSlot _ = ts0.fullSlot from rfl, hk]
        exact hnew
  · simp only [if_neg hk] at hdef
    subst hdef
    exact hst ts0 hts0 n hocc

/-- Every occupant written by the placement loop has the occupied slot in
its own availability (stated for an arbitrary occupancy predicate). -/
theorem greedy_fold_occSound (P : String → String → Prop) :
    ∀ (l : List (Nat × Adv.Team)) (st : List Adv.TimeSlot)
      (ups : List (Nat × Adv.Team)),
      (∀ ts ∈ st, ∀ n, (ts.groupATeam = some n ∨ ts.groupBTeam = some n) →
        P n ts.fullSlot) →
      (∀ it ∈ l, ∀ s, s ∈ it.2.availableSlots → P it.2.name s) →
      ∀ ts ∈ (l.foldl Adv.greedyStep (st, ups)).1, ∀ n,
        (ts.groupATeam = some n ∨ ts.groupBTeam = some n) →
        P n ts.fullSlot := by
  intro l
  induction l with
  | nil =>
    intro st ups hst _
    exact hst
  | cons hd tl ih =>
    intro st ups hst hpool
    rw [List.foldl_cons]
    have hpool_tl : ∀ it ∈ tl, ∀ s, s ∈ it.2.availableSlots →
        P it.2.name s :=
      fun it hit => hpool it (List.mem_cons_of_mem _ hit)
    unfold Adv.greedyStep
    split
    · exact ih st ups hst hpool_tl
    · cases hfp : Adv.findPlacement st hd.2 Adv.slotPriority with
      | none =>
        exact ih st _ hst hpool_tl
      | some sg =>
        obtain ⟨s, g⟩ := sg
        obtain ⟨hmem, _, _, _, _⟩ :=
          findPlacement_sound Adv.slotPriority st hd.2 s g hfp
        refine ih _ _ ?_ hpool_tl
        exact placeAt_occupant st s g hd.2.name P hst
          (hpool hd (List.mem_cons_self _ _) s hmem)

/-- Each entry of a greedy run's A/B schedule dicts pairs a slot with a
team whose availability contains it. -/
theorem runContinuous_schedule_sound (teams : List Adv.Team) :
    ∀ p ∈ (Adv.getScheduleByGroup (Adv.runContinuousOn teams).state).1 ++
        (Adv.getScheduleByGroup (Adv.runContinuousOn teams).state).2,
      ∃ t, t ∈ teams ∧ t.name = p.2 ∧ p.1 ∈ t.availableSlots := by
  intro p hp
  have hP := greedy_fold_occSound
    (fun n s => ∃ t, t ∈ teams ∧ t.name = n ∧ s ∈ t.availableSlots)
    (Adv.sortTeamsByLen (teams.map Adv.resetTeam).enum) Adv.initSlots []
    (by
      intro ts hts n hocc
      exfalso
      rcases List.mem_map.mp hts with ⟨s0, _, hdef⟩
      rcases hocc with h | h <;> rw [← hdef] at h <;> cases h)
    (by
      intro it hit s hs
      have h2 := enum_snd_mem (sorted_sub teams it hit)
      rcases List.mem_map.mp h2 with ⟨t0, ht0, hdef⟩
      refine ⟨t0, ht0, ?_, ?_⟩
      · rw [← hdef]; rfl
      · rw [← hdef] at hs; exact hs)
  rcases List.mem_append.mp hp with h | h
  · rcases List.mem_filterMap.mp h with ⟨ts, hts, hmap⟩
    cases hA : ts.groupATeam with
    | none => rw [hA] at hmap; cases hmap
    | some n =>
      rw [hA] at hmap
      have hpair : p = (ts.fullSlot, n) := by simpa using hmap.symm
      rcases hP ts hts n (Or.inl hA) with ⟨t, ht, h1, h2⟩
      exact ⟨t, ht, by rw [hpair]; exact h1, by rw [hpair]; exact h2⟩
  · rcases List.mem_filterMap.mp h with ⟨ts, hts, hmap⟩
    cases hB : ts.groupBTeam with
    | none => rw [hB] at hmap; cases hmap
    | some n =>
      rw [hB] at hmap
      have hpair : p = (ts.fullSlot, n) := by simpa using hmap.symm
      rcases hP ts hts n (Or.inr hB) with ⟨t, ht, h1, h2⟩
      exact ⟨t, ht, by rw [hpair]; exact h1, by rw [hpair]; exact h2⟩

/-- The retained best of the optimizer loop, if any, is the measurement
of one executed iteration. -/
theorem optLoop_best (total : Nat) :
    ∀ (orders : List (List Adv.Team)) (best : Option Adv.Best)
      (cur : Adv.RunResult),
      (Adv.optLoop total orders best cur).1 = best ∨
        ∃ o ∈ orders, (Adv.optLoop total orders best cur).1 =
          some (Adv.runIteration o).1 := by
  intro orders
  induction orders with
  | nil => intro best cur; exact Or.inl rfl
  | cons o rest ih =>
    intro best cur
    simp only [Adv.optLoop]
    split
    · rename_i hstop
      simp only [Bool.and_eq_true] at hstop
      rw [if_pos hstop.1]
      exact Or.inr ⟨o, List.mem_cons_self _ _, rfl⟩
    · rcases ih (if Adv.improves best (Adv.runIteration o).1
          then some (Adv.runIteration o).1 else best)
          (Adv.runIteration o).2 with h | ⟨o', ho', h⟩
      · rw [h]
        split
        · exact Or.inr ⟨o, List.mem_cons_self _ _, rfl⟩
        · exact Or.inl rfl
      · exact Or.inr ⟨o', List.mem_cons_of_mem _ ho', h⟩

/-- Each pair of the simple greedy engine's schedule dictionary joins a
slot declared available by the team placed there. -/
theorem greedySchedule_mem (oteams : List Opt.Team) :
    ∀ p ∈ Opt.greedySchedule oteams,
      ∃ t, t ∈ oteams ∧ p.2 = t.name ∧ p.1 ∈ t.availableSlots := by
  intro p hp
  unfold Opt.greedySchedule at hp
  rcases optGreedy_fold_mem (Opt.mrvSort oteams) [] p hp with h | ⟨t, ht, h1, h2⟩
  · cases h
  · exact ⟨t, (mrvSort_perm oteams).mem_iff.mp ht, h1, h2⟩

/-- The optimizer's returned schedule dicts are empty or come from one
executed iteration over one of the shuffled orders. -/
theorem optimizeSchedule_sched (teams : List Adv.Team)
    (orders : List (List Adv.Team)) (st0 : List Adv.TimeSlot) :
    ((Adv.optimizeSchedule teams orders st0).schedA = [] ∧
        (Adv.optimizeSchedule teams orders st0).schedB = []) ∨
      ∃ o, o ∈ orders ∧
        (Adv.optimizeSchedule teams orders st0).schedA =
          (Adv.getScheduleByGroup (Adv.runContinuousOn o).state).1 ∧
        (Adv.optimizeSchedule teams orders st0).schedB =
          (Adv.getScheduleByGroup (Adv.runContinuousOn o).state).2 := by
  rcases optLoop_best teams.length orders none
      { state := st0, teams := teams } with h | ⟨o, ho, h⟩
  · left
    simp [Adv.optimizeSchedule, h]
  · right
    refine ⟨o, ho, ?_⟩
    simp only [Adv.optimizeSchedule, h]
    by_cases he : (Adv.runIteration o).1.saved.isEmpty
    · rw [if_pos he]
      exact ⟨rfl, rfl⟩
    · rw [if_neg he]
      exact ⟨rfl, rfl⟩

/-- C2: availability containment holds for the continuous greedy engine
(both the rebuilt team records and the A/B schedule dicts), the simple
greedy engine, the backtracking engine including its fallback, and the
randomized-restart optimizer's returned dicts — but, as
`C2_counterexample` shows, NOT for the exact solver, whose model has no
availability constraint; the claim is corrected to exclude it. -/
theorem C2_availability_containment (teams : List Adv.Team)
    (oteams : List Opt.Team) (orders : List (List Adv.Team))
    (st0 : List Adv.TimeSlot) (horders : ∀ o ∈ orders, o.Perm teams) :
    (∀ t' ∈ (Adv.runContinuousOn teams).teams, Adv.assignOk t') ∧
    (∀ p ∈ (Adv.getScheduleByGroup (Adv.runContinuousOn teams).state).1 ++
        (Adv.getScheduleByGroup (Adv.runContinuousOn teams).state).2,
      ∃ t, t ∈ teams ∧ t.name = p.2 ∧ p.1 ∈ t.availableSlots) ∧
    (∀ p ∈ Opt.greedySchedule oteams,
      ∃ t, t ∈ oteams ∧ p.2 = t.name ∧ p.1 ∈ t.availableSlots) ∧
    (∀ p ∈ Opt.backtrackScheduling oteams,
      ∃ t, t ∈ oteams ∧ p.2 = t.name ∧ p.1 ∈ t.availableSlots) ∧
    (∀ p ∈ (Adv.optimizeSchedule teams orders st0).schedA ++
        (Adv.optimizeSchedule teams orders st0).schedB,
      ∃ t, t ∈ teams ∧ t.name = p.2 ∧ p.1 ∈ t.availableSlots) := by
  refine ⟨runContinuous_assignOk teams, runContinuous_schedule_sound teams,
    greedySchedule_mem oteams, ?_, ?_⟩
  · intro p hp
    unfold Opt.backtrackScheduling at hp
    cases hbt : Opt.backtrackRun oteams with
    | some r =>
      simp only [hbt] at hp
      have hbt' : Opt.btAux (Opt.mrvSort oteams) [] [] = some r := hbt
      obtain ⟨_, hsound, _, _, _⟩ :=
        btAux_sound (Opt.mrvSort oteams) [] [] r hbt'
      rcases hsound p hp with h | ⟨t, ht, h1, h2⟩
      · cases h
      · exact ⟨t, (mrvSort_perm oteams).mem_iff.mp ht, h1, h2⟩
    | none =>
      simp only [hbt] at hp
      rcases greedySchedule_mem (Opt.mrvSort oteams) p hp with ⟨t, ht, h1, h2⟩
      exact ⟨t, (mrvSort_perm oteams).mem_iff.mp ht, h1, h2⟩
  · intro p hp
    rcases optimizeSchedule_sched teams orders st0 with ⟨hA, hB⟩ | ⟨o, ho, hA, hB⟩
    · rw [hA, hB] at hp
      cases hp
    · rw [hA, hB] at hp
      rcases runContinuous_schedule_sound o p hp with ⟨t, ht, h1, h2⟩
      exact ⟨t, (horders o ho).mem_iff.mp ht, h1, h2⟩

/-- Witness for `C2_availability_containment` at a concrete instance. -/
theorem C2_availability_containment_witness :
    (∀ t' ∈ (Adv.runContinuousOn [advT1, advT2]).teams, Adv.assignOk t') ∧
    (∀ p ∈ (Adv.getScheduleByGroup (Adv.runContinuousOn [advT1, advT2]).state).1 ++
        (Adv.getScheduleByGroup (Adv.runContinuousOn [advT1, advT2]).state).2,
      ∃ t, t ∈ [advT1, advT2] ∧ t.name = p.2 ∧ p.1 ∈ t.availableSlots) ∧
    (∀ p ∈ Opt.greedySchedule [optW5a, optW5b],
      ∃ t, t ∈ [optW5a, optW5b] ∧ p.2 = t.name ∧ p.1 ∈ t.availableSlots) ∧
    (∀ p ∈ Opt.backtrackScheduling [optW5a, optW5b],
      ∃ t, t ∈ [optW5a, optW5b] ∧ p.2 = t.name ∧ p.1 ∈ t.availableSlots) ∧
    (∀ p ∈ (Adv.optimizeSchedule [advT1, advT2] [[advT2, advT1]]
          Adv.initSlots).schedA ++
        (Adv.optimizeSchedule [advT1, advT2] [[advT2, advT1]]
          Adv.initSlots).schedB,
      ∃ t, t ∈ [advT1, advT2] ∧ t.name = p.2 ∧ p.1 ∈ t.availableSlots) :=
  C2_availability_containment [advT1, advT2] [optW5a, optW5b]
    [[advT2, advT1]] Adv.initSlots (by decide)

/-- The slot keys of the A/B schedule dicts form sublists of the state's
key sequence. -/
theorem schedule_keys_sublist (st : List Adv.TimeSlot) :
    ((Adv.getScheduleByGroup st).1.map Prod.fst).Sublist
        (st.map (fun ts => ts.fullSlot)) ∧
      ((Adv.getScheduleByGroup st).2.map Prod.fst).Sublist
        (st.map (fun ts => ts.fullSlot)) := by
  induction st with
  | nil => exact ⟨List.Sublist.refl _, List.Sublist.refl _⟩
  | cons ts rest ih =>
    constructor
    · cases hA : ts.groupATeam with
      | none =>
        simp only [Adv.getScheduleByGroup, List.filterMap_cons, hA,
          Option.map_none', List.map_cons]
        exact ih.1.cons _
      | some a =>
        simp only [Adv.getScheduleByGroup, List.filterMap_cons, hA,
          Option.map_some', List.map_cons]
        exact ih.1.cons₂ _
    · cases hB : ts.groupBTeam with
      | none =>
        simp only [Adv.getScheduleByGroup, List.filterMap_cons, hB,
          Option.map_none', List.map_cons]
        exact ih.2.cons _
      | some b =>
        simp only [Adv.getScheduleByGroup, List.filterMap_cons, hB,
          Option.map_some', List.map_cons]
        exact ih.2.cons₂ _

/-- The values of the A/B schedule dicts are the per-track occupant
sequences of the state. -/
theorem schedule_values_eq (st : List Adv.TimeSlot) :
    (Adv.getScheduleByGroup st).1.map Prod.snd =
        st.filterMap (fun ts => ts.groupATeam) ∧
      (Adv.getScheduleByGroup st).2.map Prod.snd =
        st.filterMap (fun ts => ts.groupBTeam) := by
  constructor <;>
    simp [Adv.getScheduleByGroup, List.map_filterMap, Option.map_map,
      Function.comp]

/-- The combined values of the A/B schedule dicts are a permutation of
the state's occupant list. -/
theorem schedule_values_perm (st : List Adv.TimeSlot) :
    ((Adv.getScheduleByGroup st).1.map Prod.snd ++
      (Adv.getScheduleByGroup st).2.map Prod.snd).Perm (Adv.occupants st) := by
  rw [(schedule_values_eq st).1, (schedule_values_eq st).2]
  induction st with
  | nil => simp [Adv.occupants]
  | cons ts rest ih =>
    rw [occupants_cons]
    cases hA : ts.groupATeam with
    | none =>
      cases hB : ts.groupBTeam with
      | none =>
        simp only [List.filterMap_cons, hA, hB, Option.toList_none,
          List.nil_append, List.append_nil]
        exact ih
      | some b =>
        simp only [List.filterMap_cons, hA, hB, Option.toList_none,
          Option.toList_some, List.nil_append, List.cons_append]
        exact List.perm_middle.trans (ih.cons b)
    | some a =>
      cases hB : ts.groupBTeam with
      | none =>
        simp only [List.filterMap_cons, hA, hB, Option.toList_none,
          Option.toList_some, List.append_nil, List.cons_append,
          List.nil_append]
        exact ih.cons a
      | some b =>
        simp only [List.filterMap_cons, hA, hB, Option.toList_some,
          List.cons_append, List.nil_append]
        exact (List.perm_middle.trans (ih.cons b)).cons a

/-- With pairwise-distinct input names, the greedy run's schedule dicts
have pairwise-distinct slot keys per track and pairwise-distinct occupant
names overall. -/
theorem runContinuous_dict_facts (teams : List Adv.Team)
    (hnd : (teams.map (fun t => t.name)).Nodup) :
    ((Adv.getScheduleByGroup (Adv.runContinuousOn teams).state).1.map
        Prod.fst).Nodup ∧
      ((Adv.getScheduleByGroup (Adv.runContinuousOn teams).state).2.map
        Prod.fst).Nodup ∧
      ((Adv.getScheduleByGroup (Adv.runContinuousOn teams).state).1.map
          Prod.snd ++
        (Adv.getScheduleByGroup (Adv.runContinuousOn teams).state).2.map
          Prod.snd).Nodup := by
  obtain ⟨hkeys, hocc⟩ := runContinuous_state_facts teams hnd
  have hknd : ((Adv.runContinuousOn teams).state.map
      (fun ts => ts.fullSlot)).Nodup := by
    rw [hkeys]
    exact allSlots_nodup
  exact ⟨(schedule_keys_sublist _).1.nodup hknd,
    (schedule_keys_sublist _).2.nodup hknd,
    (schedule_values_perm _).nodup_iff.mpr hocc⟩

/-- C1: no double-booking holds for the greedy, backtracking and
optimizer engines — per-track slot keys and occupant names are pairwise
distinct — and for the exact solver only at the level of its variable
keys: each (slot, group-index) variable key carries at most one team and
each team exactly one variable.  As `C1_counterexample` shows, the
solver's PHYSICAL (slot, track) pairs can be double-booked through
group-mismatched variables, so the claim is corrected to exclude that
reading for the exact solver. -/
theorem C1_no_double_booking (teams : List Adv.Team)
    (hnd : (teams.map (fun t => t.name)).Nodup)
    (oteams : List Opt.Team)
    (hond : (oteams.map (fun t => t.name)).Nodup)
    (orders : List (List Adv.Team)) (st0 : List Adv.TimeSlot)
    (horders : ∀ o ∈ orders, o.Perm teams)
    (cteams : List Core.Team) (slots : List Core.Slot)
    (cons : Core.Constraint) (x : Core.ScheduleAsn) (p : Core.PrefAsn)
    (g2 : Core.GroupAsn) (hne : cteams ≠ [])
    (hf : Core.feasible cteams slots cons x p g2 = true) :
    ((Adv.getScheduleByGroup (Adv.runContinuousOn teams).state).1.map
        Prod.fst).Nodup ∧
    ((Adv.getScheduleByGroup (Adv.runContinuousOn teams).state).2.map
        Prod.fst).Nodup ∧
    ((Adv.getScheduleByGroup (Adv.runContinuousOn teams).state).1.map
        Prod.snd ++
      (Adv.getScheduleByGroup (Adv.runContinuousOn teams).state).2.map
        Prod.snd).Nodup ∧
    ((Opt.greedySchedule oteams).map Prod.fst).Nodup ∧
    ((Opt.greedySchedule oteams).map Prod.snd).Nodup ∧
    ((Opt.backtrackScheduling oteams).map Prod.fst).Nodup ∧
    ((Opt.backtrackScheduling oteams).map Prod.snd).Nodup ∧
    ((Adv.optimizeSchedule teams orders st0).schedA.map Prod.fst).Nodup ∧
    ((Adv.optimizeSchedule teams orders st0).schedB.map Prod.fst).Nodup ∧
    ((Adv.optimizeSchedule teams orders st0).schedA.map Prod.snd ++
      (Adv.optimizeSchedule teams orders st0).schedB.map Prod.snd).Nodup ∧
    (∀ s ∈ slots, ∀ g, Core.slotGroupSum cteams x s.slotId g ≤ 1) ∧
    (∀ t ∈ cteams, slots ≠ [] → Core.teamPairSum slots x t.teamId = 1) := by
  obtain ⟨hA1, hA2, hA3⟩ := runContinuous_dict_facts teams hnd
  have hgnd : ∀ (l : List Opt.Team), (l.map (fun t => t.name)).Nodup →
      ((Opt.greedySchedule l).map Prod.fst).Nodup ∧
        ((Opt.greedySchedule l).map Prod.snd).Nodup := by
    intro l hl
    have hmrv : ((Opt.mrvSort l).map (fun t => t.name)).Nodup :=
      (((mrvSort_perm l).map (fun t => t.name)).nodup_iff).mpr hl
    exact optGreedy_fold_nodup (Opt.mrvSort l) [] List.nodup_nil
      List.nodup_nil (fun p hp => absurd hp (List.not_mem_nil p)) hmrv
  have hbt : ((Opt.backtrackScheduling oteams).map Prod.fst).Nodup ∧
      ((Opt.backtrackScheduling oteams).map Prod.snd).Nodup := by
    unfold Opt.backtrackScheduling
    cases hrun : Opt.backtrackRun oteams with
    | some r =>
      have hrun' : Opt.btAux (Opt.mrvSort oteams) [] [] = some r := hrun
      obtain ⟨_, _, hk, hv, _⟩ :=
        btAux_sound (Opt.mrvSort oteams) [] [] r hrun'
      exact ⟨hk List.nodup_nil,
        hv List.nodup_nil (fun p hp => absurd hp (List.not_mem_nil p))⟩
    | none =>
      refine hgnd (Opt.mrvSort oteams) ?_
      exact (((mrvSort_perm oteams).map (fun t => t.name)).nodup_iff).mpr hond
  have hopt : ((Adv.optimizeSchedule teams orders st0).schedA.map
        Prod.fst).Nodup ∧
      ((Adv.optimizeSchedule teams orders st0).schedB.map Prod.fst).Nodup ∧
      ((Adv.optimizeSchedule teams orders st0).schedA.map Prod.snd ++
        (Adv.optimizeSchedule teams orders st0).schedB.map Prod.snd).Nodup := by
    rcases optimizeSchedule_sched teams orders st0 with ⟨hOA, hOB⟩ | ⟨o, ho, hOA, hOB⟩
    · rw [hOA, hOB]
      exact ⟨List.nodup_nil, List.nodup_nil, List.nodup_nil⟩
    · rw [hOA, hOB]
      have hodn : (o.map (fun t => t.name)).Nodup :=
        (((horders o ho).map (fun t => t.name)).nodup_iff).mpr hnd
      exact runContinuous_dict_facts o hodn
  have hcne : cteams.isEmpty = false := by
    cases cteams with
    | nil => exact absurd rfl hne
    | cons c cs => rfl
  simp only [Core.feasible, Bool.and_eq_true] at hf
  obtain ⟨⟨⟨⟨h1, h2⟩, _⟩, _⟩, _⟩ := hf
  refine ⟨hA1, hA2, hA3, (hgnd oteams hond).1, (hgnd oteams hond).2,
    hbt.1, hbt.2, hopt.1, hopt.2.1, hopt.2.2, ?_, ?_⟩
  · intro s hs g
    have hss := (List.all_eq_true.mp h2) s hs
    simp only [hcne, Bool.false_or, Bool.and_eq_true] at hss
    cases g with
    | A => exact of_decide_eq_true hss.1
    | B => exact of_decide_eq_true hss.2
  · intro t ht hsne
    have hse : slots.isEmpty = false := by
      cases slots with
      | nil => exact absurd rfl hsne
      | cons s ss => rfl
    have htt := (List.all_eq_true.mp h1) t ht
    simp only [hse, Bool.false_or] at htt
    simpa only [beq_iff_eq] using htt

/-- Witness for `C1_no_double_booking` at a concrete instance. -/
theorem C1_no_double_booking_witness :
    ((Adv.getScheduleByGroup (Adv.runContinuousOn [advT1, advT2]).state).1.map
        Prod.fst).Nodup ∧
    ((Adv.getScheduleByGroup (Adv.runContinuousOn [advT1, advT2]).state).2.map
        Prod.fst).Nodup ∧
    ((Adv.getScheduleByGroup (Adv.runContinuousOn [advT1, advT2]).state).1.map
        Prod.snd ++
      (Adv.getScheduleByGroup (Adv.runContinuousOn [advT1, advT2]).state).2.map
        Prod.snd).Nodup ∧
    ((Opt.greedySchedule [optW5a, optW5b]).map Prod.fst).Nodup ∧
    ((Opt.greedySchedule [optW5a, optW5b]).map Prod.snd).Nodup ∧
    ((Opt.backtrackScheduling [optW5a, optW5b]).map Prod.fst).Nodup ∧
    ((Opt.backtrackScheduling [optW5a, optW5b]).map Prod.snd).Nodup ∧
    ((Adv.optimizeSchedule [advT1, advT2] [[advT2, advT1]]
        Adv.initSlots).schedA.map Prod.fst).Nodup ∧
    ((Adv.optimizeSchedule [advT1, advT2] [[advT2, advT1]]
        Adv.initSlots).schedB.map Prod.fst).Nodup ∧
    ((Adv.optimizeSchedule [advT1, advT2] [[advT2, advT1]]
        Adv.initSlots).schedA.map Prod.snd ++
      (Adv.optimizeSchedule [advT1, advT2] [[advT2, advT1]]
        Adv.initSlots).schedB.map Prod.snd).Nodup ∧
    (∀ s ∈ slots3, ∀ g, Core.slotGroupSum [coreT1] xC2 s.slotId g ≤ 1) ∧
    (∀ t ∈ [coreT1], slots3 ≠ [] →
      Core.teamPairSum slots3 xC2 t.teamId = 1) :=
  C1_no_double_booking [advT1, advT2] (by decide) [optW5a, optW5b]
    (by decide) [[advT2, advT1]] Adv.initSlots (by decide) [coreT1] slots3
    consEmpty xC2 Core.pAllTrue g2C1 (by decide) (by decide)

/-! ### The optimizer's retained best and its restoration step -/

/-- Against an empty best, every iteration improves. -/
theorem improves_none (b : Adv.Best) : Adv.improves none b = true := rfl

/-- The improvement test against a retained best, in propositional
form. -/
theorem improves_some_iff (b1 b2 : Adv.Best) :
    Adv.improves (some b1) b2 = true ↔
      b1.count < b2.count ∨
        (b2.count = b1.count ∧ b2.gapScore < b1.gapScore) := by
  simp only [Adv.improves, Bool.or_eq_true, Bool.and_eq_true,
    decide_eq_true_eq, beq_iff_eq]

/-- `geB` is reflexive. -/
theorem geB_refl (b : Adv.Best) : geB b b := ⟨Nat.le_refl _, fun _ => Nat.le_refl _⟩

/-- `geB` is transitive. -/
theorem geB_trans {b1 b2 b3 : Adv.Best} (h12 : geB b1 b2) (h23 : geB b2 b3) :
    geB b1 b3 := by
  unfold geB at *
  omega

/-- A failed improvement test means the retained best is at least as
good. -/
theorem improves_false_geB {b1 b2 : Adv.Best}
    (h : Adv.improves (some b1) b2 = false) : geB b1 b2 := by
  have h' : ¬ (b1.count < b2.count ∨
      (b2.count = b1.count ∧ b2.gapScore < b1.gapScore)) := by
    rw [← improves_some_iff, h]
    exact Bool.false_ne_true
  unfold geB
  omega

/-- A successful improvement test means the challenger is at least as
good as the retained best. -/
theorem improves_true_geB {b1 b2 : Adv.Best}
    (h : Adv.improves (some b1) b2 = true) : geB b2 b1 := by
  have h' := (improves_some_iff b1 b2).mp h
  unfold geB
  omega

/-- At-least-as-good measurements never pass the improvement test. -/
theorem geB_improves_false {b1 b2 : Adv.Best} (h : geB b1 b2) :
    Adv.improves (some b1) b2 = false := by
  rw [← Bool.not_eq_true, improves_some_iff]
  unfold geB at h
  omega

/-- The retained best of the optimizer loop is at least as good as the
incoming best and as every executed iteration's measurement. -/
theorem optLoop_maximal (total : Nat) :
    ∀ (orders : List (List Adv.Team)) (best : Option Adv.Best)
      (cur : Adv.RunResult) (b : Adv.Best),
      (Adv.optLoop total orders best cur).1 = some b →
      (∀ pb, best = some pb → geB b pb) ∧
        ∀ o ∈ Adv.executedIters total orders best,
          geB b (Adv.runIteration o).1 := by
  intro orders
  induction orders with
  | nil =>
    intro best cur b h
    have hb : best = some b := h
    constructor
    · intro pb hpb
      rw [hpb] at hb
      cases hb
      exact geB_refl _
    · intro o ho
      simp [Adv.executedIters] at ho
  | cons o rest ih =>
    intro best cur b h
    simp only [Adv.optLoop] at h
    by_cases hcond : (Adv.improves best (Adv.runIteration o).1 &&
        ((Adv.runIteration o).1.count == total &&
          (Adv.runIteration o).1.gapScore == 0)) = true
    · rw [if_pos hcond] at h
      have himp : Adv.improves best (Adv.runIteration o).1 = true := by
        have hc := hcond
        simp only [Bool.and_eq_true] at hc
        exact hc.1
      rw [if_pos himp] at h
      have hb : (Adv.runIteration o).1 = b := by
        simpa using h
      constructor
      · intro pb hpb
        subst hpb
        rw [← hb]
        exact improves_true_geB himp
      · intro o' ho'
        simp only [Adv.executedIters] at ho'
        rw [if_pos hcond] at ho'
        have hoo : o' = o := by simpa using ho'
        subst hoo
        rw [← hb]
        exact geB_refl _
    · rw [if_neg hcond] at h
      obtain ⟨ih1, ih2⟩ := ih _ _ b h
      constructor
      · intro pb hpb
        subst hpb
        by_cases himp : Adv.improves (some pb) (Adv.runIteration o).1 = true
        · have h1 : geB b (Adv.runIteration o).1 := by
            apply ih1
            rw [if_pos himp]
          exact geB_trans h1 (improves_true_geB himp)
        · apply ih1
          rw [if_neg himp]
      · intro o' ho'
        simp only [Adv.executedIters] at ho'
        rw [if_neg hcond] at ho'
        rcases List.mem_cons.mp ho' with rfl | ho''
        · by_cases himp : Adv.improves best (Adv.runIteration o').1 = true
          · apply ih1
            rw [if_pos himp]
          · cases best with
            | none =>
              rw [improves_none] at himp
              exact absurd rfl himp
            | some pb =>
              have h1 : geB b pb := ih1 pb (by rw [if_neg himp])
              exact geB_trans h1
                (improves_false_geB (Bool.eq_false_iff.mpr himp))
        · exact ih2 o' ho''

/-- A nonempty order list always yields a retained best, and the loop's
final mutable state is the one left by some executed iteration. -/
theorem optLoop_run (total : Nat) :
    ∀ (orders : List (List Adv.Team)) (best : Option Adv.Best)
      (cur : Adv.RunResult), orders ≠ [] →
      ∃ o', o' ∈ orders ∧
        (Adv.optLoop total orders best cur).2 = (Adv.runIteration o').2 ∧
        ((Adv.optLoop total orders best cur).1).isSome = true := by
  intro orders
  induction orders with
  | nil =>
    intro best cur h
    exact absurd rfl h
  | cons o rest ih =>
    intro best cur _
    simp only [Adv.optLoop]
    by_cases hcond : (Adv.improves best (Adv.runIteration o).1 &&
        ((Adv.runIteration o).1.count == total &&
          (Adv.runIteration o).1.gapScore == 0)) = true
    · rw [if_pos hcond]
      refine ⟨o, List.mem_cons_self _ _, rfl, ?_⟩
      have himp : Adv.improves best (Adv.runIteration o).1 = true := by
        have hc := hcond
        simp only [Bool.and_eq_true] at hc
        exact hc.1
      rw [if_pos himp]
      rfl
    · rw [if_neg hcond]
      cases rest with
      | nil =>
        refine ⟨o, List.mem_cons_self _ _, rfl, ?_⟩
        by_cases himp : Adv.improves best (Adv.runIteration o).1 = true
        · rw [if_pos himp]
          rfl
        · cases best with
          | none =>
            rw [improves_none] at himp
            exact absurd rfl himp
          | some pb =>
            rw [if_neg himp]
            rfl
      | cons o2 rest2 =>
        obtain ⟨o', ho', h1, h2⟩ := ih _ (Adv.runIteration o).2 (by simp)
        exact ⟨o', List.mem_cons_of_mem _ ho', h1, h2⟩

/-- The default slot universe is its own alignment under empty
occupancies. -/
theorem initSlots_align :
    Adv.initSlots.map (alignSlot (fun _ => none) (fun _ => none)) =
      Adv.initSlots := by
  rw [Adv.initSlots, List.map_map]
  rfl

/-- Alignment is preserved by a placement. -/
theorem aligned_placeAt (st : List Adv.TimeSlot) (hal : Aligned st)
    (s g n : String) : Aligned (Adv.placeAt st s g n) := by
  obtain ⟨fA, fB, rfl⟩ := hal
  by_cases hg : g = "A"
  · refine ⟨fun k => if k = s then some n else fA k, fB, ?_⟩
    rw [Adv.placeAt, Adv.updateSlot, List.map_map]
    refine List.map_congr_left ?_
    intro ts0 _
    by_cases hk : ts0.fullSlot = s
    · simp [Function.comp, alignSlot, hk, hg]
    · simp [Function.comp, alignSlot, hk]
  · refine ⟨fA, fun k => if k = s then some n else fB k, ?_⟩
    rw [Adv.placeAt, Adv.updateSlot, List.map_map]
    refine List.map_congr_left ?_
    intro ts0 _
    by_cases hk : ts0.fullSlot = s
    · simp [Function.comp, alignSlot, hk, hg]
    · simp [Function.comp, alignSlot, hk]

/-- Alignment is preserved by the placement fold of the continuous
engine. -/
theorem aligned_fold :
    ∀ (l : List (Nat × Adv.Team)) (st : List Adv.TimeSlot)
      (ups : List (Nat × Adv.Team)), Aligned st →
      Aligned ((l.foldl Adv.greedyStep (st, ups)).1) := by
  intro l
  induction l with
  | nil =>
    intro st ups h
    exact h
  | cons hd tl ih =>
    intro st ups h
    rw [List.foldl_cons]
    unfold Adv.greedyStep
    split
    · exact ih st ups h
    · cases hfp : Adv.findPlacement st hd.2 Adv.slotPriority with
      | none => exact ih st _ h
      | some sg =>
        obtain ⟨s, g⟩ := sg
        exact ih _ _ (aligned_placeAt st h s g hd.2.name)

/-- Every state reached by the continuous engine is an alignment of the
default universe. -/
theorem aligned_run (teams : List Adv.Team) :
    Aligned (Adv.runContinuousOn teams).state :=
  aligned_fold (Adv.sortTeamsByLen (teams.map Adv.resetTeam).enum)
    Adv.initSlots [] ⟨fun _ => none, fun _ => none, initSlots_align.symm⟩

/-- An aligned state has the default key sequence. -/
theorem aligned_keys (st : List Adv.TimeSlot) (hal : Aligned st) :
    st.map (fun ts => ts.fullSlot) = Adv.allSlots := by
  obtain ⟨fA, fB, rfl⟩ := hal
  rw [List.map_map]
  exact initSlots_keys

/-- Overriding at keys other than `k` does not change the value at `k`. -/
theorem overrideList_not_mem :
    ∀ (sa : List (String × String)) (g : String → Option String)
      (k : String), k ∉ sa.map Prod.fst → overrideList g sa k = g k := by
  intro sa
  induction sa with
  | nil =>
    intro g k _
    rfl
  | cons p rest ih =>
    intro g k hk
    have hk1 : k ∉ rest.map Prod.fst := by
      intro h
      exact hk (List.mem_cons_of_mem _ h)
    have hkp : ¬ k = p.1 := by
      intro h
      refine hk ?_
      rw [List.map_cons, h]
      exact List.mem_cons_self _ _
    show overrideList (fun k0 => if k0 = p.1 then some p.2 else g k0) rest k = g k
    rw [ih _ k hk1]
    exact if_neg hkp

/-- With pairwise-distinct keys, replay of an association list stores
each pair's value at its key. -/
theorem overrideList_mem :
    ∀ (sa : List (String × String)) (g : String → Option String)
      (k v : String), (sa.map Prod.fst).Nodup → (k, v) ∈ sa →
      overrideList g sa k = some v := by
  intro sa
  induction sa with
  | nil =>
    intro g k v _ h
    cases h
  | cons p rest ih =>
    intro g k v hnd hmem
    rw [List.map_cons] at hnd
    obtain ⟨hp1, hnd2⟩ := List.nodup_cons.mp hnd
    rcases List.mem_cons.mp hmem with rfl | hmem2
    · have hknot : k ∉ rest.map Prod.fst := by
        simpa using hp1
      show overrideList (fun k0 => if k0 = (k, v).1 then some (k, v).2 else g k0) rest k = some v
      rw [overrideList_not_mem rest _ k hknot]
      simp
    · exact ih _ k v hnd2 hmem2

/-- The A-track replay fold of the restoration step, functionally. -/
theorem rebuild_fold_A :
    ∀ (sa : List (String × String)) (gA gB : String → Option String),
      sa.foldl (fun st p => Adv.updateSlot st p.1
          (fun ts => { ts with groupATeam := some p.2 }))
        (Adv.initSlots.map (alignSlot gA gB)) =
      Adv.initSlots.map (alignSlot (overrideList gA sa) gB) := by
  intro sa
  induction sa with
  | nil =>
    intro gA gB
    rfl
  | cons p rest ih =>
    intro gA gB
    rw [List.foldl_cons]
    have hstep : Adv.updateSlot (Adv.initSlots.map (alignSlot gA gB)) p.1
        (fun ts => { ts with groupATeam := some p.2 }) =
        Adv.initSlots.map
          (alignSlot (fun k => if k = p.1 then some p.2 else gA k) gB) := by
      rw [Adv.updateSlot, List.map_map]
      refine List.map_congr_left ?_
      intro ts0 _
      by_cases hk : ts0.fullSlot = p.1
      · simp [Function.comp, alignSlot, hk]
      · simp [Function.comp, alignSlot, hk]
    rw [hstep]
    exact ih _ _

/-- The B-track replay fold of the restoration step, functionally. -/
theorem rebuild_fold_B :
    ∀ (sb : List (String × String)) (gA gB : String → Option String),
      sb.foldl (fun st p => Adv.updateSlot st p.1
          (fun ts => { ts with groupBTeam := some p.2 }))
        (Adv.initSlots.map (alignSlot gA gB)) =
      Adv.initSlots.map (alignSlot gA (overrideList gB sb)) := by
  intro sb
  induction sb with
  | nil =>
    intro gA gB
    rfl
  | cons p rest ih =>
    intro gA gB
    rw [List.foldl_cons]
    have hstep : Adv.updateSlot (Adv.initSlots.map (alignSlot gA gB)) p.1
        (fun ts => { ts with groupBTeam := some p.2 }) =
        Adv.initSlots.map
          (alignSlot gA (fun k => if k = p.1 then some p.2 else gB k)) := by
      rw [Adv.updateSlot, List.map_map]
      refine List.map_congr_left ?_
      intro ts0 _
      by_cases hk : ts0.fullSlot = p.1
      · simp [Function.comp, alignSlot, hk]
      · simp [Function.comp, alignSlot, hk]
    rw [hstep]
    exact ih _ _

/-- The rebuilt state is the default universe under the replayed
occupancy functions. -/
theorem rebuild_eq (sa sb : List (String × String)) :
    Adv.rebuildState sa sb = Adv.initSlots.map
      (alignSlot (overrideList (fun _ => none) sa)
        (overrideList (fun _ => none) sb)) := by
  rw [Adv.rebuildState]
  conv_lhs => rw [show Adv.initSlots = Adv.initSlots.map
    (alignSlot (fun _ => none) (fun _ => none)) from initSlots_align.symm]
  rw [rebuild_fold_A, rebuild_fold_B]

/-- The restoration step's state rebuild is a round trip: replaying the
A/B schedule dicts of an aligned state into the reset slot dictionary
reproduces that state exactly. -/
theorem rebuild_roundtrip (st : List Adv.TimeSlot) (hal : Aligned st) :
    Adv.rebuildState (Adv.getScheduleByGroup st).1
      (Adv.getScheduleByGroup st).2 = st := by
  obtain ⟨fA, fB, rfl⟩ := hal
  have hkeysnd : ((Adv.initSlots.map (alignSlot fA fB)).map
      (fun ts => ts.fullSlot)).Nodup := by
    rw [aligned_keys _ ⟨fA, fB, rfl⟩]
    exact allSlots_nodup
  have hmemA : ∀ p ∈ (Adv.getScheduleByGroup
      (Adv.initSlots.map (alignSlot fA fB))).1, fA p.1 = some p.2 := by
    intro p hp
    simp only [Adv.getScheduleByGroup] at hp
    rcases List.mem_filterMap.mp hp with ⟨ts1, hts1, hmap⟩
    rcases List.mem_map.mp hts1 with ⟨ts2, _, rfl⟩
    cases hfa : fA ts2.fullSlot with
    | none =>
      rw [show (alignSlot fA fB ts2).groupATeam = fA ts2.fullSlot from rfl,
        hfa] at hmap
      cases hmap
    | some n =>
      rw [show (alignSlot fA fB ts2).groupATeam = fA ts2.fullSlot from rfl,
        hfa] at hmap
      have hpp : p = (ts2.fullSlot, n) := by simpa using hmap.symm
      rw [hpp]
      exact hfa
  have hmemB : ∀ p ∈ (Adv.getScheduleByGroup
      (Adv.initSlots.map (alignSlot fA fB))).2, fB p.1 = some p.2 := by
    intro p hp
    simp only [Adv.getScheduleByGroup] at hp
    rcases List.mem_filterMap.mp hp with ⟨ts1, hts1, hmap⟩
    rcases List.mem_map.mp hts1 with ⟨ts2, _, rfl⟩
    cases hfb : fB ts2.fullSlot with
    | none =>
      rw [show (alignSlot fA fB ts2).groupBTeam = fB ts2.fullSlot from rfl,
        hfb] at hmap
      cases hmap
    | some n =>
      rw [show (alignSlot fA fB ts2).groupBTeam = fB ts2.fullSlot from rfl,
        hfb] at hmap
      have hpp : p = (ts2.fullSlot, n) := by simpa using hmap.symm
      rw [hpp]
      exact hfb
  have hndA : (((Adv.getScheduleByGroup
      (Adv.initSlots.map (alignSlot fA fB))).1.map Prod.fst)).Nodup :=
    (schedule_keys_sublist _).1.nodup hkeysnd
  have hndB : (((Adv.getScheduleByGroup
      (Adv.initSlots.map (alignSlot fA fB))).2.map Prod.fst)).Nodup :=
    (schedule_keys_sublist _).2.nodup hkeysnd
  rw [rebuild_eq]
  refine List.map_congr_left ?_
  intro ts0 hts0
  have hA : overrideList (fun _ => none)
      (Adv.getScheduleByGroup (Adv.initSlots.map (alignSlot fA fB))).1
      ts0.fullSlot = fA ts0.fullSlot := by
    cases hfa : fA ts0.fullSlot with
    | some n =>
      refine overrideList_mem _ _ _ _ hndA ?_
      simp only [Adv.getScheduleByGroup]
      refine List.mem_filterMap.mpr ⟨alignSlot fA fB ts0,
        List.mem_map_of_mem _ hts0, ?_⟩
      rw [show (alignSlot fA fB ts0).groupATeam = fA ts0.fullSlot from rfl,
        hfa]
      rfl
    | none =>
      refine overrideList_not_mem _ _ _ ?_
      intro hmem
      rcases List.mem_map.mp hmem with ⟨p, hp, hfst⟩
      have := hmemA p hp
      rw [hfst, hfa] at this
      cases this
  have hB : overrideList (fun _ => none)
      (Adv.getScheduleByGroup (Adv.initSlots.map (alignSlot fA fB))).2
      ts0.fullSlot = fB ts0.fullSlot := by
    cases hfb : fB ts0.fullSlot with
    | some n =>
      refine overrideList_mem _ _ _ _ hndB ?_
      simp only [Adv.getScheduleByGroup]
      refine List.mem_filterMap.mpr ⟨alignSlot fA fB ts0,
        List.mem_map_of_mem _ hts0, ?_⟩
      rw [show (alignSlot fA fB ts0).groupBTeam = fB ts0.fullSlot from rfl,
        hfb]
      rfl
    | none =>
      refine overrideList_not_mem _ _ _ ?_
      intro hmem
      rcases List.mem_map.mp hmem with ⟨p, hp, hfst⟩
      have := hmemB p hp
      rw [hfst, hfb] at this
      cases this
  simp [alignSlot, hA, hB]

/-- A team whose name occurs among the saved tuples is restored from the
first tuple bearing its name. -/
theorem restoreTeam_eq
    (saved : List (String × Option String × Option String × Option String))
    (t : Adv.Team) (hmem : t.name ∈ saved.map Prod.fst) :
    ∃ q, q ∈ saved ∧ q.1 = t.name ∧
      (Adv.restoreTeam saved t).name = t.name ∧
      (Adv.restoreTeam saved t).assignedSlot = q.2.1 ∧
      (Adv.restoreTeam saved t).assignedGroup = q.2.2.1 ∧
      (Adv.restoreTeam saved t).conflictReason = q.2.2.2 := by
  rcases List.mem_map.mp hmem with ⟨q1, hq1, hq1n⟩
  have hsome : (saved.find? (fun q => t.name = q.1)).isSome := by
    apply List.find?_isSome.mpr
    refine ⟨q1, hq1, ?_⟩
    simp [hq1n]
  cases hfind : saved.find? (fun q => t.name = q.1) with
  | none =>
    rw [hfind] at hsome
    cases hsome
  | some q0 =>
    have hpq : t.name = q0.1 := by
      have h := List.find?_some hfind
      exact of_decide_eq_true h
    refine ⟨q0, List.mem_of_find?_eq_some hfind, hpq.symm, ?_, ?_, ?_, ?_⟩ <;>
      simp [Adv.restoreTeam, hfind]

/-- The continuous engine preserves the name sequence of its input. -/
theorem runContinuous_names (teams : List Adv.Team) :
    (Adv.runContinuousOn teams).teams.map (fun t => t.name) =
      teams.map (fun t => t.name) := by
  have h := runContinuous_idFields teams
  have h1 : ∀ (l : List Adv.Team), l.map (fun t => t.name) =
      (l.map Adv.idFields).map Prod.fst := by
    intro l
    rw [List.map_map]
    rfl
  rw [h1 (Adv.runContinuousOn teams).teams, h1 teams, h]

/-- C10: with a positive iteration cap and non-empty teams, the
optimizer's returned dicts, final slot state and final team assignment
fields all come from the single best retained iteration — the retained
best is the measurement of one executed shuffled order, it is
lexicographically maximal over all executed iterations, the restored
slot state equals that iteration's state exactly, and every restored
team carries that iteration's per-name assignment fields. -/
theorem C10_optimizer_restores_best (teams : List Adv.Team)
    (orders : List (List Adv.Team)) (st0 : List Adv.TimeSlot)
    (horders : ∀ o ∈ orders, o.Perm teams)
    (honempty : orders ≠ []) (hteams : teams ≠ []) :
    ∃ o b, o ∈ orders ∧
      (Adv.optLoop teams.length orders none
          { state := st0, teams := teams }).1 = some b ∧
      b = (Adv.runIteration o).1 ∧
      (Adv.optimizeSchedule teams orders st0).schedA = b.schedA ∧
      (Adv.optimizeSchedule teams orders st0).schedB = b.schedB ∧
      (Adv.optimizeSchedule teams orders st0).state =
        (Adv.runContinuousOn o).state ∧
      (∀ t' ∈ (Adv.optimizeSchedule teams orders st0).teams,
        ∃ u, u ∈ (Adv.runContinuousOn o).teams ∧ u.name = t'.name ∧
          t'.assignedSlot = u.assignedSlot ∧
          t'.assignedGroup = u.assignedGroup ∧
          t'.conflictReason = u.conflictReason) ∧
      (∀ o' ∈ Adv.executedIters teams.length orders none,
        Adv.improves (some b) (Adv.runIteration o').1 = false) := by
  obtain ⟨olast, holast, hlast2, hsome⟩ := optLoop_run teams.length orders
    none { state := st0, teams := teams } honempty
  rcases optLoop_best teams.length orders none
      { state := st0, teams := teams } with hnone | ⟨o, ho, hb1⟩
  · rw [hnone] at hsome
    cases hsome
  refine ⟨o, (Adv.runIteration o).1, ho, hb1, rfl, ?_⟩
  have hrunlen : ∀ (l : List Adv.Team),
      (Adv.runContinuousOn l).teams.length = l.length := by
    intro l
    have := congrArg List.length (runContinuous_names l)
    simpa using this
  have hlensaved : (Adv.runIteration o).1.saved.length = teams.length := by
    show ((Adv.runContinuousOn o).teams.map (fun t =>
      (t.name, t.assignedSlot, t.assignedGroup, t.conflictReason))).length = _
    rw [List.length_map, hrunlen o, (horders o ho).length_eq]
  have hsne : (Adv.runIteration o).1.saved.isEmpty = false := by
    cases hsv : (Adv.runIteration o).1.saved with
    | nil =>
      rw [hsv] at hlensaved
      cases teams with
      | nil => exact absurd rfl hteams
      | cons a l => simp at hlensaved
    | cons a l => rfl
  have hOS : Adv.optimizeSchedule teams orders st0 =
      { schedA := (Adv.runIteration o).1.schedA
        schedB := (Adv.runIteration o).1.schedB
        state := Adv.rebuildState (Adv.runIteration o).1.schedA
          (Adv.runIteration o).1.schedB
        teams := (Adv.optLoop teams.length orders none
          { state := st0, teams := teams }).2.teams.map
            (Adv.restoreTeam (Adv.runIteration o).1.saved) } := by
    simp only [Adv.optimizeSchedule, hb1, hsne]
    exact if_neg Bool.false_ne_true
  refine ⟨by rw [hOS], by rw [hOS], ?_, ?_, ?_⟩
  · rw [hOS]
    show Adv.rebuildState
      (Adv.getScheduleByGroup (Adv.runContinuousOn o).state).1
      (Adv.getScheduleByGroup (Adv.runContinuousOn o).state).2 =
        (Adv.runContinuousOn o).state
    exact rebuild_roundtrip _ (aligned_run o)
  · intro t' ht'
    rw [hOS] at ht'
    simp only at ht'
    rcases List.mem_map.mp ht' with ⟨t, ht, hdef⟩
    rw [hlast2] at ht
    have hsavednames : (Adv.runIteration o).1.saved.map Prod.fst =
        o.map (fun u => u.name) := by
      show ((Adv.runContinuousOn o).teams.map (fun u =>
        (u.name, u.assignedSlot, u.assignedGroup, u.conflictReason))).map
          Prod.fst = _
      rw [List.map_map]
      exact runContinuous_names o
    have htname : t.name ∈ (Adv.runIteration o).1.saved.map Prod.fst := by
      rw [hsavednames]
      have h1 : t.name ∈ (Adv.runContinuousOn olast).teams.map
          (fun u => u.name) := List.mem_map_of_mem _ ht
      rw [runContinuous_names olast] at h1
      have h2 : t.name ∈ teams.map (fun u => u.name) :=
        ((horders olast holast).map (fun u => u.name)).mem_iff.mp h1
      exact ((horders o ho).map (fun u => u.name)).mem_iff.mpr h2
    obtain ⟨q, hq, hqname, hname, hslot, hgroup, hreason⟩ :=
      restoreTeam_eq (Adv.runIteration o).1.saved t htname
    have hqmem : q ∈ (Adv.runContinuousOn o).teams.map (fun u =>
        (u.name, u.assignedSlot, u.assignedGroup, u.conflictReason)) := hq
    rcases List.mem_map.mp hqmem with ⟨u, hu, hudef⟩
    refine ⟨u, hu, ?_, ?_, ?_, ?_⟩
    · rw [← hdef, hname, ← hqname, ← hudef]
    · rw [← hdef, hslot, ← hudef]
    · rw [← hdef, hgroup, ← hudef]
    · rw [← hdef, hreason, ← hudef]
  · intro o' ho'
    refine geB_improves_false ?_
    exact (optLoop_maximal teams.length orders none
      { state := st0, teams := teams } (Adv.runIteration o).1 hb1).2 o' ho'

/-- Witness for `C10_optimizer_restores_best` at a concrete instance. -/
theorem C10_optimizer_restores_best_witness :
    ∃ o b, o ∈ [[advT2, advT1]] ∧
      (Adv.optLoop ([advT1, advT2] : List Adv.Team).length [[advT2, advT1]]
          none { state := Adv.initSlots, teams := [advT1, advT2] }).1 =
        some b ∧
      b = (Adv.runIteration o).1 ∧
      (Adv.optimizeSchedule [advT1, advT2] [[advT2, advT1]]
        Adv.initSlots).schedA = b.schedA ∧
      (Adv.optimizeSchedule [advT1, advT2] [[advT2, advT1]]
        Adv.initSlots).schedB = b.schedB ∧
      (Adv.optimizeSchedule [advT1, advT2] [[advT2, advT1]]
        Adv.initSlots).state = (Adv.runContinuousOn o).state ∧
      (∀ t' ∈ (Adv.optimizeSchedule [advT1, advT2] [[advT2, advT1]]
          Adv.initSlots).teams,
        ∃ u, u ∈ (Adv.runContinuousOn o).teams ∧ u.name = t'.name ∧
          t'.assignedSlot = u.assignedSlot ∧
          t'.assignedGroup = u.assignedGroup ∧
          t'.conflictReason = u.conflictReason) ∧
      (∀ o' ∈ Adv.executedIters ([advT1, advT2] : List Adv.Team).length
          [[advT2, advT1]] none,
        Adv.improves (some b) (Adv.runIteration o').1 = false) :=
  C10_optimizer_restores_best [advT1, advT2] [[advT2, advT1]] Adv.initSlots
    (by decide) (by decide) (by decide)

end Snaac
